import Mathlib

/-!
Verification of the morfessor-cognates segmentation engine.

The Python sources are embedded shallowly:
* the cognate construction algebra (morfessor/constructions/cognate.py),
* the cost bookkeeping (morfessor/cost.py, morfessorcognate/cognate.py),
* the analysis-store operations and optimizers (morfessorcognate/baseline.py,
  morfessorcognate/cognate.py).

Python strings become List Char, dictionaries and Counters become association
lists (Counter keys persist once created, with value 0, exactly as in CPython),
machine floats become real numbers, and functions that can raise become
Option- or Except-valued functions.  Recursive procedures whose termination
depends on runtime data take an explicit fuel argument; fuel exhaustion yields
none and the theorems below always supply sufficient fuel.
-/

namespace MorfCog

/-! ### Association-list maps (Python dict) and counters (collections.Counter) -/

/-- Lookup in an association list (Python dict access returning None/KeyError
handled at call sites). -/
def mapLookup {κ ν : Type} [DecidableEq κ] : List (κ × ν) → κ → Option ν
  | [], _ => none
  | (k, v) :: rest, k' => if k' = k then some v else mapLookup rest k'

/-- Replace the value at an existing key, or append a new binding (dict item
assignment). -/
def mapInsert {κ ν : Type} [DecidableEq κ] : List (κ × ν) → κ → ν → List (κ × ν)
  | [], k, v => [(k, v)]
  | (k0, v0) :: rest, k, v =>
    if k = k0 then (k0, v) :: rest else (k0, v0) :: mapInsert rest k v

/-- Delete a key (Python del).  Since mapInsert never duplicates keys, removing
every binding of the key is the same as removing the unique one. -/
def mapErase {κ ν : Type} [DecidableEq κ] : List (κ × ν) → κ → List (κ × ν)
  | [], _ => []
  | (k0, v0) :: rest, k =>
    if k = k0 then mapErase rest k else (k0, v0) :: mapErase rest k

/-- Counter read: missing keys read as 0 and are not inserted. -/
def counterGet {κ : Type} [DecidableEq κ] (m : List (κ × Int)) (k : κ) : Int :=
  (mapLookup m k).getD 0

/-- Counter write: inserts the key even when the stored value is 0, mirroring
that CPython Counter item assignment never removes keys. -/
def counterSet {κ : Type} [DecidableEq κ] (m : List (κ × Int)) (k : κ) (v : Int) :
    List (κ × Int) :=
  mapInsert m k v

/-- Number of keys of a counter, counting keys holding 0 (Python len). -/
def counterLen {κ : Type} (m : List (κ × Int)) : Nat := m.length

@[simp] theorem mapLookup_nil {κ ν : Type} [DecidableEq κ] (k : κ) :
    mapLookup ([] : List (κ × ν)) k = none := rfl

@[simp] theorem mapLookup_cons {κ ν : Type} [DecidableEq κ] (k k' : κ) (v : ν)
    (rest : List (κ × ν)) :
    mapLookup ((k, v) :: rest) k' = if k' = k then some v else mapLookup rest k' := rfl

theorem mapLookup_insert_self {κ ν : Type} [DecidableEq κ]
    (m : List (κ × ν)) (k : κ) (v : ν) : mapLookup (mapInsert m k v) k = some v := by
  induction m with
  | nil => simp [mapInsert]
  | cons kv rest ih =>
    obtain ⟨k0, v0⟩ := kv
    by_cases h : k = k0 <;> simp [mapInsert, h, ih]

theorem mapLookup_insert_ne {κ ν : Type} [DecidableEq κ]
    (m : List (κ × ν)) (k k' : κ) (v : ν) (h : k' ≠ k) :
    mapLookup (mapInsert m k v) k' = mapLookup m k' := by
  induction m with
  | nil => simp [mapInsert, h]
  | cons kv rest ih =>
    obtain ⟨k0, v0⟩ := kv
    by_cases h0 : k = k0
    · subst h0; simp [mapInsert, h]
    · by_cases h1 : k' = k0 <;> simp [mapInsert, h0, h1, ih]

theorem mapLookup_erase_self {κ ν : Type} [DecidableEq κ]
    (m : List (κ × ν)) (k : κ) : mapLookup (mapErase m k) k = none := by
  induction m with
  | nil => simp [mapErase]
  | cons kv rest ih =>
    obtain ⟨k0, v0⟩ := kv
    by_cases h : k = k0
    · subst h; simpa [mapErase] using ih
    · simp [mapErase, h, ih]

theorem mapLookup_erase_ne {κ ν : Type} [DecidableEq κ]
    (m : List (κ × ν)) (k k' : κ) (h : k' ≠ k) :
    mapLookup (mapErase m k) k' = mapLookup m k' := by
  induction m with
  | nil => simp [mapErase]
  | cons kv rest ih =>
    obtain ⟨k0, v0⟩ := kv
    by_cases h0 : k = k0
    · subst h0; simpa [mapErase, h] using ih
    · by_cases h1 : k' = k0 <;> simp [mapErase, h0, h1, ih]

/-! ### Cognate construction algebra (morfessor/constructions/cognate.py)

A construction side is either an atom sequence or the WILDCARD sentinel.
Python len(WILDCARD) is 2 (Wildcard.__len__); iterating WILDCARD yields no
atoms; str(WILDCARD) is the empty string. -/

/-- One side of a cognate construction: atoms or the WILDCARD sentinel. -/
inductive Side where
  | wild : Side
  | str : List Char → Side
deriving DecidableEq

/-- A cognate construction: pair of source and target sides
(namedtuple CognateConstruction). -/
structure CogConstr where
  src : Side
  trg : Side
deriving DecidableEq

/-- The reserved delimiter atom U+FFE8 (DELIM in the source). -/
def DELIM : Char := '￨'

/-- Python len() of a side: Wildcard.__len__ returns 2. -/
def sideLen : Side → Nat
  | .wild => 2
  | .str s => s.length

/-- Length contribution of a side in parts_to_splitlocs: a WILDCARD side is
skipped, so it contributes 0. -/
def sideLen0 : Side → Nat
  | .wild => 0
  | .str s => s.length

/-- Python s[a:b] on a character list (clamping slice semantics). -/
def strSlice (s : List Char) (a b : Nat) : List Char := (s.drop a).take (b - a)

/-- _sub_slice with only the stop argument (field[:stop]); WILDCARD slices to
WILDCARD. -/
def subSliceTo : Side → Nat → Side
  | .wild, _ => .wild
  | .str s, b => .str (s.take b)

/-- _sub_slice with only the start argument (field[start:]). -/
def subSliceFrom : Side → Nat → Side
  | .wild, _ => .wild
  | .str s, a => .str (s.drop a)

/-- _sub_slice with both arguments (field[start:stop]). -/
def subSlice : Side → Nat → Nat → Side
  | .wild, _, _ => .wild
  | .str s, a, b => .str (strSlice s a b)

/-- A split location for cognate constructions is a pair of indices. -/
def CogLoc : Type := Nat × Nat
deriving instance DecidableEq for CogLoc

/-- split_locations with the default start=None, stop=None.  The ranges are
range(start0+1, end0) x range(start1+1, end1) where a WILDCARD side forces
its own range to (0, 2); for a non-wildcard side the defaults are 0 and the
side length. -/
def split_locations (c : CogConstr) (start stop : Option (Nat × Nat)) :
    List (Nat × Nat) :=
  let s0 := start.getD (0, 0)
  let e0 := stop.getD (sideLen c.src, sideLen c.trg)
  let s1 := if c.src = .wild then (0, s0.2) else s0
  let e1 := if c.src = .wild then (2, e0.2) else e0
  let s2 := if c.trg = .wild then (s1.1, 0) else s1
  let e2 := if c.trg = .wild then (e1.1, 2) else e1
  (List.range' (s2.1 + 1) (e2.1 - (s2.1 + 1))).flatMap fun gi =>
    (List.range' (s2.2 + 1) (e2.2 - (s2.2 + 1))).map fun pi => (gi, pi)

/-- force_split_locations: always empty for cognate constructions. -/
def force_split_locations (_ : CogConstr) : List (Nat × Nat) := []

/-- split(construction, loc): the prefix/suffix pair.  The source asserts
0 < loc < len on every non-wildcard side; validity is tracked separately by
ValidLoc below. -/
def splitAt2 (c : CogConstr) (loc : Nat × Nat) : CogConstr × CogConstr :=
  (⟨subSliceTo c.src loc.1, subSliceTo c.trg loc.2⟩,
   ⟨subSliceFrom c.src loc.1, subSliceFrom c.trg loc.2⟩)

/-- The assertion guarding split: each non-wildcard side is cut strictly
inside the sequence. -/
def ValidLoc (c : CogConstr) (loc : Nat × Nat) : Prop :=
  (c.src = .wild ∨ (0 < loc.1 ∧ loc.1 < sideLen0 c.src)) ∧
  (c.trg = .wild ∨ (0 < loc.2 ∧ loc.2 < sideLen0 c.trg))

/-- splitn main loop (the list-of-locations case; a single bare location is
dispatched by the source to split, which coincides with the singleton list). -/
def splitnAux (c : CogConstr) : (Nat × Nat) → List (Nat × Nat) → List CogConstr
  | prev, [] =>
    [⟨subSliceFrom c.src prev.1, subSliceFrom c.trg prev.2⟩]
  | prev, l :: ls =>
    ⟨subSlice c.src prev.1 l.1, subSlice c.trg prev.2 l.2⟩ :: splitnAux c l ls

/-- splitn(construction, locs): cut at every location in order. -/
def splitn (c : CogConstr) (locs : List (Nat × Nat)) : List CogConstr :=
  splitnAux c (0, 0) locs

/-- parts_to_splitlocs: cumulative per-side offsets over parts[:-1]; a
WILDCARD side contributes length 0. -/
def partsToSplitlocsAux : (Nat × Nat) → List CogConstr → List (Nat × Nat)
  | _, [] => []
  | _, [_] => []
  | cur, p :: rest =>
    let cur' := (cur.1 + sideLen0 p.src, cur.2 + sideLen0 p.trg)
    cur' :: partsToSplitlocsAux cur' rest

/-- parts_to_splitlocs entry point (cur_len starts at [0, 0]). -/
def parts_to_splitlocs (parts : List CogConstr) : List (Nat × Nat) :=
  partsToSplitlocsAux (0, 0) parts

/-- str() of a side: the WILDCARD renders as the empty string. -/
def sideChars : Side → List Char
  | .wild => []
  | .str s => s

/-- to_string: source and target joined by DELIM. -/
def to_string (c : CogConstr) : List Char :=
  sideChars c.src ++ DELIM :: sideChars c.trg

/-- An empty character list parses back to WILDCARD. -/
def sideOfChars (s : List Char) : Side :=
  if s = [] then .wild else .str s

/-- from_string: split at the first DELIM (string.split(DELIM, 1)); if the
delimiter is absent the Python tuple unpacking raises, modelled as none. -/
def from_string (s : List Char) : Option CogConstr :=
  let srcPart := s.takeWhile (fun ch => ch ≠ DELIM)
  match s.dropWhile (fun ch => ch ≠ DELIM) with
  | [] => none
  | _ :: trgPart => some ⟨sideOfChars srcPart, sideOfChars trgPart⟩

/-- is_atom: every non-wildcard side has length at most 1. -/
def is_atom (c : CogConstr) : Bool :=
  !(c.src ≠ .wild ∧ sideLen0 c.src > 1 : Bool) &&
    !(c.trg ≠ .wild ∧ sideLen0 c.trg > 1 : Bool)

/-- The runtime assertion chain of splitn: successive locations are strictly
increasing on every non-wildcard side and strictly inside it. -/
def validSplitlocs (c : CogConstr) : (Nat × Nat) → List (Nat × Nat) → Bool
  | _, [] => true
  | prev, l :: ls =>
    (decide (c.src = .wild) || (decide (prev.1 < l.1) && decide (l.1 < sideLen0 c.src))) &&
    (decide (c.trg = .wild) || (decide (prev.2 < l.2) && decide (l.2 < sideLen0 c.trg))) &&
    validSplitlocs c l ls

/-- Auxiliary: a flatMap producing singletons is a map. -/
theorem flatMap_singleton_map {α β : Type} (l : List α) (f : α → β) :
    (l.flatMap fun x => [f x]) = l.map f := by
  induction l <;> simp_all

/-- Auxiliary: with defaults, both ranges of split_locations are the interior
range of the corresponding side length (a WILDCARD side has length 2 and its
special-cased range (0, 2) coincides with the default). -/
theorem split_locations_none_eq (c : CogConstr) :
    split_locations c none none =
      (List.range' 1 (sideLen c.src - 1)).flatMap fun gi =>
        (List.range' 1 (sideLen c.trg - 1)).map fun pi => (gi, pi) := by
  cases hs : c.src <;> cases ht : c.trg <;>
    simp [split_locations, hs, ht, sideLen]

/-- C6: split_locations on a cognate pair enumerates exactly the pairs (i, j)
with 0 < i < len(src) and 0 < j < len(trg), where a WILDCARD side has
length 2, so such a side yields exactly the index 1; a pair whose
non-wildcard sides have length 1 yields no locations at all. -/
theorem C6_split_locations_characterization :
    (∀ (c : CogConstr) (i j : Nat),
        (i, j) ∈ split_locations c none none ↔
          0 < i ∧ i < sideLen c.src ∧ 0 < j ∧ j < sideLen c.trg) ∧
    (∀ t : List Char,
        split_locations ⟨.wild, .str t⟩ none none =
          (List.range' 1 (t.length - 1)).map fun pi => (1, pi)) ∧
    (∀ s : List Char,
        split_locations ⟨.str s, .wild⟩ none none =
          (List.range' 1 (s.length - 1)).map fun gi => (gi, 1)) ∧
    (∀ a b : Char, split_locations ⟨.str [a], .str [b]⟩ none none = []) ∧
    (∀ a : Char, split_locations ⟨.str [a], .wild⟩ none none = []) ∧
    (∀ b : Char, split_locations ⟨.wild, .str [b]⟩ none none = []) := by
  refine ⟨fun c i j => ?_, fun t => ?_, fun s => ?_, fun a b => ?_, fun a => ?_,
    fun b => ?_⟩
  · rw [split_locations_none_eq]
    simp only [List.mem_flatMap, List.mem_map, List.mem_range'_1, Prod.mk.injEq]
    constructor
    · rintro ⟨gi, hgi, pi, hpi, rfl, rfl⟩
      omega
    · rintro ⟨h1, h2, h3, h4⟩
      exact ⟨i, by omega, j, by omega, rfl, rfl⟩
  · rw [split_locations_none_eq]
    simp [sideLen, List.range']
  · rw [split_locations_none_eq]
    have hr : List.range' 1 (sideLen Side.wild - 1) = [1] := rfl
    rw [hr]
    simp only [List.map_cons, List.map_nil, sideLen]
    exact flatMap_singleton_map _ _
  · rw [split_locations_none_eq]; simp [sideLen]
  · rw [split_locations_none_eq]; simp [sideLen]
  · rw [split_locations_none_eq]; simp [sideLen]

/-! ### C7: string round-trip -/

/-- A side that survives the string round-trip: the WILDCARD, or a non-empty
atom sequence free of the reserved delimiter. -/
def GoodSide : Side → Prop
  | .wild => True
  | .str s => s ≠ [] ∧ DELIM ∉ s

/-- Auxiliary: takeWhile of a delimiter-free block followed by the delimiter. -/
theorem takeWhile_block (xs ys : List Char) (h : DELIM ∉ xs) :
    (xs ++ DELIM :: ys).takeWhile (fun ch => ch ≠ DELIM) = xs := by
  induction xs with
  | nil => simp [List.takeWhile]
  | cons x xt ih =>
    simp only [List.mem_cons, not_or] at h
    have hx : decide (x ≠ DELIM) = true := decide_eq_true (fun he => h.1 he.symm)
    simp only [List.cons_append, List.takeWhile_cons]
    rw [hx]
    simp only [if_true, List.cons.injEq]
    exact ⟨trivial, ih h.2⟩

/-- Auxiliary: dropWhile of a delimiter-free block followed by the delimiter. -/
theorem dropWhile_block (xs ys : List Char) (h : DELIM ∉ xs) :
    (xs ++ DELIM :: ys).dropWhile (fun ch => ch ≠ DELIM) = DELIM :: ys := by
  induction xs with
  | nil => simp [List.dropWhile]
  | cons x xt ih =>
    simp only [List.mem_cons, not_or] at h
    have hx : decide (x ≠ DELIM) = true := decide_eq_true (fun he => h.1 he.symm)
    simp only [List.cons_append, List.dropWhile_cons]
    rw [hx]
    simp only [if_true]
    exact ih h.2

/-- C7 (counterexample): the round-trip fails on a construction with an empty
non-wildcard side, since the empty rendering parses back to WILDCARD, which
is a distinct value (Wildcard.__eq__ is False on strings). -/
theorem C7_roundtrip_counterexample :
    from_string (to_string ⟨Side.str ['a'], Side.str []⟩) =
        some ⟨Side.str ['a'], Side.wild⟩ ∧
      some (CogConstr.mk (Side.str ['a']) Side.wild) ≠
        some ⟨Side.str ['a'], Side.str []⟩ := by
  constructor
  · rfl
  · decide

/-- C7 (amended): from_string(to_string(c)) == c for every construction whose
non-wildcard sides are non-empty and do not contain the reserved delimiter
atom U+FFE8; an empty side renders as the empty string and parses back to
WILDCARD, so constructions with an empty non-wildcard side are excluded. -/
theorem C7_roundtrip (c : CogConstr) (hs : GoodSide c.src) (ht : GoodSide c.trg) :
    from_string (to_string c) = some c := by
  have hsrc : DELIM ∉ sideChars c.src := by
    cases h : c.src with
    | wild => simp [sideChars]
    | str s => rw [h] at hs; exact (hs.2 : DELIM ∉ s)
  have hmk : ∀ sd : Side, GoodSide sd → sideOfChars (sideChars sd) = sd := by
    intro sd hsd
    cases h : sd with
    | wild => simp [sideChars, sideOfChars]
    | str s =>
      rw [h] at hsd
      simp [sideChars, sideOfChars, hsd.1]
  unfold from_string to_string
  rw [takeWhile_block _ _ hsrc, dropWhile_block _ _ hsrc]
  simp only [hmk c.src hs, hmk c.trg ht]

/-- C7 (witness): the amended round-trip at a concrete projection. -/
theorem C7_roundtrip_witness :
    from_string (to_string ⟨Side.str ['a'], Side.wild⟩) =
      some ⟨Side.str ['a'], Side.wild⟩ :=
  C7_roundtrip ⟨Side.str ['a'], Side.wild⟩ ⟨by decide, by decide⟩ trivial

/-! ### C8: splitn round-trip -/

/-- Auxiliary: splitnAux always yields at least one part. -/
theorem splitnAux_ne_nil (c : CogConstr) (prev : Nat × Nat)
    (locs : List (Nat × Nat)) : splitnAux c prev locs ≠ [] := by
  cases locs <;> simp [splitnAux]

/-- Auxiliary: unfolding partsToSplitlocsAux on a cons with non-empty tail. -/
theorem partsToSplitlocsAux_cons (cur : Nat × Nat) (p : CogConstr)
    (rest : List CogConstr) (h : rest ≠ []) :
    partsToSplitlocsAux cur (p :: rest) =
      (cur.1 + sideLen0 p.src, cur.2 + sideLen0 p.trg) ::
        partsToSplitlocsAux (cur.1 + sideLen0 p.src, cur.2 + sideLen0 p.trg) rest := by
  cases rest with
  | nil => exact absurd rfl h
  | cons r rs => rfl

/-- Auxiliary: the splitn round-trip generalized over the running offset, for
constructions with two non-wildcard sides. -/
theorem parts_roundtrip_aux (s t : List Char) :
    ∀ (locs : List (Nat × Nat)) (prev : Nat × Nat),
      prev.1 ≤ s.length → prev.2 ≤ t.length →
      validSplitlocs ⟨.str s, .str t⟩ prev locs = true →
      partsToSplitlocsAux prev (splitnAux ⟨.str s, .str t⟩ prev locs) = locs := by
  intro locs
  induction locs with
  | nil => intro prev _ _ _; simp [splitnAux, partsToSplitlocsAux]
  | cons l ls ih =>
    intro prev hp1 hp2 hv
    simp only [validSplitlocs, Bool.and_eq_true, Bool.or_eq_true, decide_eq_true_eq,
      sideLen0] at hv
    obtain ⟨⟨hv1, hv2⟩, hv3⟩ := hv
    have h1 : prev.1 < l.1 ∧ l.1 < s.length := by
      rcases hv1 with h | h
      · exact absurd h (by simp)
      · exact h
    have h2 : prev.2 < l.2 ∧ l.2 < t.length := by
      rcases hv2 with h | h
      · exact absurd h (by simp)
      · exact h
    rw [show splitnAux ⟨Side.str s, Side.str t⟩ prev (l :: ls) =
          ⟨subSlice (Side.str s) prev.1 l.1, subSlice (Side.str t) prev.2 l.2⟩ ::
            splitnAux ⟨Side.str s, Side.str t⟩ l ls from rfl]
    rw [partsToSplitlocsAux_cons _ _ _ (splitnAux_ne_nil _ _ _)]
    have e1 : prev.1 + sideLen0 (subSlice (Side.str s) prev.1 l.1) = l.1 := by
      simp [subSlice, sideLen0, strSlice]; omega
    have e2 : prev.2 + sideLen0 (subSlice (Side.str t) prev.2 l.2) = l.2 := by
      simp [subSlice, sideLen0, strSlice]; omega
    simp only [e1, e2]
    rw [ih l (le_of_lt h1.2) (le_of_lt h2.2) hv3]

/-- C8 (counterexample): for a projection the round-trip fails: the location
(1, 1) is a valid interior split of (WILDCARD, ab) — it is exactly what
split_locations yields — yet the wildcard side contributes length 0 in
parts_to_splitlocs, so the recovered location is (0, 1). -/
theorem C8_roundtrip_counterexample :
    validSplitlocs ⟨Side.wild, Side.str ['a', 'b']⟩ (0, 0) [(1, 1)] = true ∧
      (1, 1) ∈ split_locations ⟨Side.wild, Side.str ['a', 'b']⟩ none none ∧
      parts_to_splitlocs (splitn ⟨Side.wild, Side.str ['a', 'b']⟩ [(1, 1)]) =
        [(0, 1)] ∧
      [((0 : Nat), (1 : Nat))] ≠ [(1, 1)] := by
  refine ⟨by decide, ?_, by decide, by decide⟩
  rw [split_locations_none_eq]
  decide

/-- C8 (amended): for every construction whose two sides are both
non-wildcard and every monotonically increasing sequence of valid interior
split locations, parts_to_splitlocs(splitn(c, locs)) == locs; a WILDCARD
side contributes length 0 to the cumulative offsets, so projections are
excluded. -/
theorem C8_roundtrip (s t : List Char) (locs : List (Nat × Nat))
    (hv : validSplitlocs ⟨.str s, .str t⟩ (0, 0) locs = true) :
    parts_to_splitlocs (splitn ⟨.str s, .str t⟩ locs) = locs :=
  parts_roundtrip_aux s t locs (0, 0) (Nat.zero_le _) (Nat.zero_le _) hv

/-- C8 (witness): the amended round-trip at a concrete input. -/
theorem C8_roundtrip_witness :
    parts_to_splitlocs (splitn ⟨.str ['a', 'b', 'c', 'd'], .str ['x', 'y', 'z']⟩
        [(1, 1), (3, 2)]) = [(1, 1), (3, 2)] :=
  C8_roundtrip ['a', 'b', 'c', 'd'] ['x', 'y', 'z'] [(1, 1), (3, 2)] (by decide)

/-! ### Edit extraction (morfessorcognate/cognate.py, functions remove_equal,
merge_consecutive_edits, lengthening, edits).  The Levenshtein.opcodes entry
point is the external python-Levenshtein dependency and is modelled from the
spec. -/

/-- A single-character edit operation. -/
inductive EOp where
  | eq | sub | del | ins
deriving DecidableEq

/-- Number of non-equal operations in a script (standard Levenshtein cost). -/
def editCost (ops : List EOp) : Nat := (ops.filter (fun o => o ≠ EOp.eq)).length

/-- Modelled from the spec: Levenshtein.opcodes of the external
python-Levenshtein dependency (spec section 4.C step 1).  A minimal edit
script is computed by the textbook recursion; equal heads are matched, and
ties prefer substitution, then deletion, then insertion.  Fuel is the sum of
lengths, which always suffices since each step consumes a character. -/
def editOpsF : Nat → List Char → List Char → List EOp
  | _, [], ys => ys.map fun _ => EOp.ins
  | _, xs, [] => xs.map fun _ => EOp.del
  | 0, _ :: _, _ :: _ => []
  | fuel + 1, x :: xs, y :: ys =>
    if x = y then .eq :: editOpsF fuel xs ys
    else
      let dsub := EOp.sub :: editOpsF fuel xs ys
      let ddel := EOp.del :: editOpsF fuel xs (y :: ys)
      let dins := EOp.ins :: editOpsF fuel (x :: xs) ys
      if editCost dsub ≤ editCost ddel ∧ editCost dsub ≤ editCost dins then dsub
      else if editCost ddel ≤ editCost dins then ddel
      else dins

/-- Modelled from the spec: minimal edit script between two atom sequences. -/
def editOps (s t : List Char) : List EOp := editOpsF (s.length + t.length) s t

/-- An opcode span (op, i0, i1, j0, j1) as returned by Levenshtein.opcodes. -/
structure OpSpan where
  op : String
  ib : Nat
  ie : Nat
  jb : Nat
  je : Nat
deriving DecidableEq

/-- Opcode tag of a single-character operation. -/
def opName : EOp → String
  | .eq => "equal" | .sub => "replace" | .del => "delete" | .ins => "insert"

/-- How far a single-character operation advances in each string. -/
def opAdvance : EOp → Nat × Nat
  | .eq => (1, 1) | .sub => (1, 1) | .del => (1, 0) | .ins => (0, 1)

/-- Modelled from the spec: grouping maximal runs of one operation into
opcode spans, tracking the positions reached in both strings. -/
def groupOps : List EOp → Nat → Nat → List OpSpan
  | [], _, _ => []
  | o :: rest, i, j =>
    let i' := i + (opAdvance o).1
    let j' := j + (opAdvance o).2
    match groupOps rest i' j' with
    | [] => [⟨opName o, i, i', j, j'⟩]
    | sp :: sps =>
      if sp.op = opName o then ⟨opName o, i, sp.ie, j, sp.je⟩ :: sps
      else ⟨opName o, i, i', j, j'⟩ :: sp :: sps

/-- Modelled from the spec: Levenshtein.opcodes(s, t). -/
def opcodes (s t : List Char) : List OpSpan := groupOps (editOps s t) 0 0

/-- remove_equal: drop the equal spans. -/
def remove_equal (ed : List OpSpan) : List OpSpan :=
  ed.filter (fun e => e.op ≠ "equal")

/-- merge_consecutive_edits main loop; the option is the held previous span
(pop/pib/pie/pjb/pje, initially None).  Abutting spans are merged into a
single replace span covering the union. -/
def mergeAux : Option OpSpan → List OpSpan → List OpSpan
  | none, [] => []
  | some p, [] => [p]
  | none, e :: rest => mergeAux (some e) rest
  | some p, e :: rest =>
    if e.ib = p.ie ∧ e.jb = p.je then
      mergeAux (some ⟨"replace", p.ib, e.ie, p.jb, e.je⟩) rest
    else
      p :: mergeAux (some e) rest

/-- merge_consecutive_edits entry point. -/
def merge_consecutive_edits (ed : List OpSpan) : List OpSpan := mergeAux none ed

/-- lengthening body for one span: a one-sided span (insert/delete) is
extended one atom to the left and/or right when the neighbouring atoms on
both sides equal the cursor atom, and relabelled as replace.  Out-of-range
reads cannot occur on spans produced by opcodes; getD supplies a dummy. -/
def lengthenOne (src trg : List Char) (e : OpSpan) : OpSpan :=
  if min (e.ie - e.ib) (e.je - e.jb) > 0 then e
  else
    let useTrg := e.ie - e.ib = 0
    let e1 :=
      if e.ib > 0 ∧ e.jb > 0 then
        let cursor := if useTrg then trg.getD e.jb ' ' else src.getD e.ib ' '
        if src.getD (e.ib - 1) ' ' = cursor ∧ trg.getD (e.jb - 1) ' ' = cursor then
          ⟨"replace", e.ib - 1, e.ie, e.jb - 1, e.je⟩
        else e
      else e
    if e1.ie < src.length - 1 ∧ e1.je < trg.length - 1 then
      let cursor := if useTrg then trg.getD (e1.je - 1) ' ' else src.getD (e1.ie - 1) ' '
      if src.getD e1.ie ' ' = cursor ∧ trg.getD e1.je ' ' = cursor then
        ⟨"replace", e1.ib, e1.ie + 1, e1.jb, e1.je + 1⟩
      else e1
    else e1

/-- lengthening: apply the left-then-right extension once per span. -/
def lengthening (src trg : List Char) (ed : List OpSpan) : List OpSpan :=
  ed.map (lengthenOne src trg)

/-- edits(src, trg): the full pipeline, emitting each surviving span as the
key sSub/tSub (one-sided spans have an empty side).  The unreachable raise
of an unknown opcode is modelled as skipping. -/
def edits (src trg : List Char) : List (List Char) :=
  (lengthening src trg (merge_consecutive_edits (remove_equal (opcodes src trg)))).filterMap
    fun e =>
      if e.op = "equal" then none
      else if e.op = "delete" then some (strSlice src e.ib e.ie ++ ['/'])
      else if e.op = "insert" then some ('/' :: strSlice trg e.jb e.je)
      else if e.op = "replace" then
        some (strSlice src e.ib e.ie ++ '/' :: strSlice trg e.jb e.je)
      else none

/-- C5: edits yields exactly the spec's outputs on the three examples:
a pure suffix insertion gives /ed, a substitution gives a/u, and the
lengthening rule turns the deletion in aaa to aa into the replacement
aa/a. -/
theorem C5_edits_examples :
    edits ['w', 'a', 'l', 'k'] ['w', 'a', 'l', 'k', 'e', 'd'] = [['/', 'e', 'd']] ∧
    edits ['c', 'a', 't'] ['c', 'u', 't'] = [['a', '/', 'u']] ∧
    edits ['a', 'a', 'a'] ['a', 'a'] = [['a', 'a', '/', 'a']] := by
  refine ⟨by decide, by decide, by decide⟩

/-! ### Encoding books.

The repository module morfessorcognate/corpus.py (LexiconEncoding,
CorpusEncoding, FixedCorpusWeight) is not under src/; the classes below are
modelled from the spec (section 4.B), which prescribes the standard Morfessor
encodings: differential maintenance of tokens, boundaries and the
sum of c*log(c) terms, a weight on the corpus term, and zero cost for an
empty book. -/

/-- Modelled from the spec: logarithm of the factorial (exact below 20,
Stirling approximation above, 0 for arguments below 2, which also covers the
negative arguments arising from tokens - 1 at zero tokens). -/
noncomputable def logfactorial (n : Int) : ℝ :=
  if n < 2 then 0
  else if n < 20 then Real.log (Nat.factorial n.toNat)
  else (n : ℝ) * Real.log (n : ℝ) - (n : ℝ) +
    (Real.log (n : ℝ) + Real.log (2 * Real.pi)) / 2

/-- Modelled from the spec: the differential adjustment of the c*log(c)
accumulator when one count moves from oldCount to newCount (counts of 0 or 1
contribute nothing). -/
noncomputable def encUpdateTerm (oldCount newCount : Int) : ℝ :=
  (if 1 < newCount then (newCount : ℝ) * Real.log (newCount : ℝ) else 0) -
    (if 1 < oldCount then (oldCount : ℝ) * Real.log (oldCount : ℝ) else 0)

/-- Modelled from the spec: LexiconEncoding state — the morph-boundary count,
the atom token total, the running c*log(c) sum and the atom counter (atom
keys persist at count 0, as in a CPython Counter). -/
structure LexEncoding where
  boundaries : Int
  tokens : Int
  logtokensum : ℝ
  atoms : List (Char × Int)

/-- Modelled from the spec: account one atom on lexicon add. -/
noncomputable def lexAddAtom (L : LexEncoding) (a : Char) : LexEncoding :=
  let c := counterGet L.atoms a
  { L with atoms := counterSet L.atoms a (c + 1),
           tokens := L.tokens + 1,
           logtokensum := L.logtokensum + encUpdateTerm c (c + 1) }

/-- Modelled from the spec: LexiconEncoding.add(construction). -/
noncomputable def lexAdd (L : LexEncoding) (constr : List Char) : LexEncoding :=
  constr.foldl lexAddAtom { L with boundaries := L.boundaries + 1 }

/-- Modelled from the spec: account one atom on lexicon remove. -/
noncomputable def lexRemoveAtom (L : LexEncoding) (a : Char) : LexEncoding :=
  let c := counterGet L.atoms a
  { L with atoms := counterSet L.atoms a (c - 1),
           tokens := L.tokens - 1,
           logtokensum := L.logtokensum + encUpdateTerm c (c - 1) }

/-- Modelled from the spec: LexiconEncoding.remove(construction). -/
noncomputable def lexRemove (L : LexEncoding) (constr : List Char) : LexEncoding :=
  constr.foldl lexRemoveAtom { L with boundaries := L.boundaries - 1 }

/-- Modelled from the spec: number of lexicon types (distinct atoms plus the
end-of-morph symbol). -/
def lexTypes (L : LexEncoding) : Int := (counterLen L.atoms : Int) + 1

/-- Modelled from the spec: the frequency-distribution prior of the lexicon
book, over tokens + boundaries events. -/
noncomputable def lexFreqDistCost (L : LexEncoding) : ℝ :=
  if lexTypes L < 2 then 0
  else
    logfactorial (L.tokens + L.boundaries - 1) - logfactorial (lexTypes L - 1) -
      logfactorial (L.tokens + L.boundaries - lexTypes L)

/-- Modelled from the spec: LexiconEncoding.get_cost (weight 1); an empty
book (no boundaries) costs 0, otherwise the standard Morfessor prior with
the permutations credit -log(boundaries!). -/
noncomputable def lexGetCost (L : LexEncoding) : ℝ :=
  if L.boundaries = 0 then 0
  else
    ((L.tokens + L.boundaries : Int) : ℝ) *
        Real.log ((L.tokens + L.boundaries : Int) : ℝ) -
      (L.boundaries : ℝ) * Real.log ((L.boundaries : Int) : ℝ) -
      L.logtokensum + (- logfactorial L.boundaries) + lexFreqDistCost L

/-- Modelled from the spec: CorpusEncoding state (the per-morph counts live
in the owning Cost object). -/
structure CorpEncoding where
  boundaries : Int
  tokens : Int
  logtokensum : ℝ
  weight : ℝ

/-- Modelled from the spec: CorpusEncoding.update_count differential step. -/
noncomputable def corpUpdateCount (C : CorpEncoding) (oldCount newCount : Int) :
    CorpEncoding :=
  { C with tokens := C.tokens + (newCount - oldCount),
           logtokensum := C.logtokensum + encUpdateTerm oldCount newCount }

/-- Modelled from the spec: the corpus frequency-distribution prior; the type
count is the lexicon boundary count plus one. -/
noncomputable def corpFreqDistCost (C : CorpEncoding) (lexBoundaries : Int) : ℝ :=
  let ty := lexBoundaries + 1
  if ty < 2 then 0
  else
    logfactorial (C.tokens - 1) - logfactorial (ty - 2) -
      logfactorial (C.tokens - ty + 1)

/-- Modelled from the spec: CorpusEncoding.get_cost; an empty corpus costs 0,
otherwise the weighted maximum-likelihood code length plus the unweighted
frequency-distribution prior (no permutation credit for a corpus). -/
noncomputable def corpGetCost (C : CorpEncoding) (lexBoundaries : Int) : ℝ :=
  if C.boundaries = 0 then 0
  else
    (((C.tokens + C.boundaries : Int) : ℝ) *
          Real.log ((C.tokens + C.boundaries : Int) : ℝ) -
        (C.boundaries : ℝ) * Real.log ((C.boundaries : Int) : ℝ) -
        C.logtokensum) * C.weight +
      corpFreqDistCost C lexBoundaries

/-! ### Cost (morfessor/cost.py, class Cost), generic in the key type with an
atom iterator, instantiated at List Char for the baseline and at Side for the
cognate sub-costs (iterating a WILDCARD yields no atoms). -/

/-- State of a Cost object: the construction counter and the two books. -/
structure CostState (κ : Type) where
  counts : List (κ × Int)
  lex : LexEncoding
  corp : CorpEncoding

/-- Cost.update(construction, delta): on a 0 count first add the lex_key to
the lexicon, adjust the corpus encoding from old to new count, and remove
from the lexicon when the count returns to 0 (lex_key and corpus_key are the
identity in both construction classes). -/
noncomputable def costUpdate {κ : Type} [DecidableEq κ] (atomsOf : κ → List Char)
    (S : CostState κ) (constr : κ) (delta : Int) : CostState κ :=
  if delta = 0 then S
  else
    let S1 :=
      if counterGet S.counts constr = 0 then
        { S with lex := lexAdd S.lex (atomsOf constr) }
      else S
    let oldCount := counterGet S1.counts constr
    let S2 := { S1 with counts := counterSet S1.counts constr (oldCount + delta),
                        corp := corpUpdateCount S1.corp oldCount (oldCount + delta) }
    if counterGet S2.counts constr = 0 then
      { S2 with lex := lexRemove S2.lex (atomsOf constr) }
    else S2

/-- Cost.update_boundaries(compound, delta): adjust the corpus boundary
count. -/
def costUpdateBoundaries {κ : Type} (S : CostState κ) (delta : Int) : CostState κ :=
  { S with corp := { S.corp with boundaries := S.corp.boundaries + delta } }

/-- Cost.cost(): lexicon plus corpus code length. -/
noncomputable def costCost {κ : Type} (S : CostState κ) : ℝ :=
  lexGetCost S.lex + corpGetCost S.corp S.lex.boundaries

/-- A fresh Cost with the given corpus weight (corpusweight None is 1.0). -/
def freshCost (κ : Type) (w : ℝ) : CostState κ :=
  ⟨[], ⟨0, 0, 0, []⟩, ⟨0, 0, 0, w⟩⟩

/-! ### CognateCost (morfessorcognate/cognate.py, class CognateCost) -/

/-- State of a CognateCost: source, target and edit sub-costs plus the edit
weight (default 1.0, as is the edit sub-cost corpus weight). -/
structure CogCostState where
  src_cost : CostState Side
  trg_cost : CostState Side
  edit_cost : CostState (List Char)
  edit_weight : ℝ

/-- CognateCost.update: dispatch each non-wildcard side to its sub-cost and,
for full pairs, every extracted edit to the edit sub-cost. -/
noncomputable def cogCostUpdate (S : CogCostState) (c : CogConstr) (delta : Int) :
    CogCostState :=
  if delta = 0 then S
  else
    let S1 :=
      if c.src ≠ .wild then
        { S with src_cost := costUpdate sideChars S.src_cost c.src delta }
      else S
    let S2 :=
      if c.trg ≠ .wild then
        { S1 with trg_cost := costUpdate sideChars S1.trg_cost c.trg delta }
      else S1
    if c.src ≠ .wild ∧ c.trg ≠ .wild then
      let newEdit :=
        (edits (sideChars c.src) (sideChars c.trg)).foldl
          (fun E e => costUpdate id E e delta) S2.edit_cost
      { S2 with edit_cost := newEdit }
    else S2

/-- CognateCost.update_boundaries: the same dispatch for boundary counts. -/
def cogCostUpdateBoundaries (S : CogCostState) (c : CogConstr) (delta : Int) :
    CogCostState :=
  let S1 :=
    if c.src ≠ .wild then
      { S with src_cost := costUpdateBoundaries S.src_cost delta }
    else S
  let S2 :=
    if c.trg ≠ .wild then
      { S1 with trg_cost := costUpdateBoundaries S1.trg_cost delta }
    else S1
  if c.src ≠ .wild ∧ c.trg ≠ .wild then
    let newEdit :=
      (edits (sideChars c.src) (sideChars c.trg)).foldl
        (fun E _ => costUpdateBoundaries E delta) S2.edit_cost
    { S2 with edit_cost := newEdit }
  else S2

/-- CognateCost.cost(): source plus target plus weighted edit cost. -/
noncomputable def cogCostCost (S : CogCostState) : ℝ :=
  costCost S.src_cost + costCost S.trg_cost + S.edit_weight * costCost S.edit_cost

/-- A fresh CognateCost with corpus weight 1 (corpusweight None). -/
def freshCogCost : CogCostState :=
  ⟨freshCost Side 1, freshCost Side 1, freshCost (List Char) 1, 1⟩

/-! ### The model (morfessorcognate/baseline.py, class BaselineModel).

The model is generic in the construction type, the split-location type and
the cost state, exactly as the source dispatches through self.cc and
self.cost.  The cognate model reuses every operation except _recursive_split
and get_construction_count, which it overrides. -/

/-- An analysis-store node (namedtuple ConstrNode).  Python stores None, an
empty tuple, a bare location or a tuple of locations in splitloc; all the
branches test it for truthiness, so None and the empty tuple collapse to []
and a bare location to a singleton list. -/
structure ConstrNode (Loc : Type) where
  rcount : Int
  count : Int
  splitloc : List Loc
deriving DecidableEq

/-- The construction-algebra operations the model consumes (self.cc). -/
structure CMethods (κ Loc : Type) where
  split_locs : κ → List Loc
  split2 : κ → Loc → κ × κ
  splitl : κ → List Loc → List κ
  force_locs : κ → List Loc
  parts_locs : List κ → List Loc

/-- The cost-model operations the model consumes (self.cost). -/
structure CostOps (κ C : Type) where
  update : C → κ → Int → C
  update_bounds : C → κ → Int → C
  total : C → ℝ

/-- The errors the model can raise. -/
inductive MErr (κ : Type) where
  | constrCount (c : κ) (n : Int)
  | segmentOnly
  | keyError
  | fuelOut
deriving DecidableEq

/-- Model state: the analysis store, the segment-only flag and the cost. -/
structure ModelState (κ Loc C : Type) where
  analyses : List (κ × ConstrNode Loc)
  segment_only : Bool
  cost : C

variable {κ Loc C : Type}

/-- _modify_construction_count(construction, dcount): no-op on zero delta or
a None construction; update (create/delete) the node, then recurse into the
children of a virtual node or report the delta of a real node to the cost. -/
def modifyCC (cm : CMethods κ Loc) (co : CostOps κ C) [DecidableEq κ] [DecidableEq Loc] :
    Nat → ModelState κ Loc C → Option κ → Int → Option (ModelState κ Loc C)
  | 0, _, _, _ => none
  | _ + 1, st, none, _ => some st
  | fuel + 1, st, some c, d =>
    if d = 0 then some st
    else
      let t :=
        match mapLookup st.analyses c with
        | some n => (n.rcount, n.count, n.splitloc)
        | none => (0, 0, [])
      let newcount := t.2.1 + d
      let analyses' :=
        if newcount = 0 then mapErase st.analyses c
        else mapInsert st.analyses c ⟨t.1, newcount, t.2.2⟩
      let st' := { st with analyses := analyses' }
      if t.2.2 ≠ [] then
        (cm.splitl c t.2.2).foldlM (fun s child => modifyCC cm co fuel s (some child) d) st'
      else
        some { st' with cost := co.update st'.cost c (newcount - t.2.1) }

/-- The first two statements of _add_compound(compound, c): the boundary
update and the count update. -/
def addCompoundBody (cm : CMethods κ Loc) (co : CostOps κ C) [DecidableEq κ]
    [DecidableEq Loc] (fuel : Nat) (st : ModelState κ Loc C) (c : κ) (d : Int) :
    Option (ModelState κ Loc C) :=
  let st1 := { st with cost := co.update_bounds st.cost c d }
  modifyCC cm co fuel st1 (some c) d

/-- _add_compound(compound, c): boundary update, count update, then the
rcount bump, which reads the node again and raises KeyError (none) when the
count update deleted it. -/
def addCompound (cm : CMethods κ Loc) (co : CostOps κ C) [DecidableEq κ] [DecidableEq Loc]
    (fuel : Nat) (st : ModelState κ Loc C) (c : κ) (d : Int) :
    Option (ModelState κ Loc C) :=
  (addCompoundBody cm co fuel st c d).bind fun st2 =>
    (mapLookup st2.analyses c).map fun node =>
      { st2 with analyses := mapInsert st2.analyses c ⟨node.rcount + d, node.count, node.splitloc⟩ }

/-- _remove(construction): read the node (KeyError when absent), subtract its
whole count, and return (rcount, count). -/
def removeConstr (cm : CMethods κ Loc) (co : CostOps κ C) [DecidableEq κ] [DecidableEq Loc]
    (fuel : Nat) (st : ModelState κ Loc C) (c : κ) :
    Option ((Int × Int) × ModelState κ Loc C) :=
  (mapLookup st.analyses c).bind fun n =>
    (modifyCC cm co fuel st (some c) (-n.count)).map fun st' => ((n.rcount, n.count), st')

/-- _set_compound_analysis(compound, parts): remove, then reinstate either as
a real leaf (single part) or as a virtual node over the parts. -/
def setCompoundAnalysis (cm : CMethods κ Loc) (co : CostOps κ C) [DecidableEq κ] [DecidableEq Loc]
    (fuel : Nat) (st : ModelState κ Loc C) (c : κ) (parts : List κ) :
    Option (ModelState κ Loc C) :=
  if parts.length = 1 then
    (removeConstr cm co fuel st c).bind fun x =>
      let st2 := { x.2 with analyses := mapInsert x.2.analyses c ⟨x.1.1, 0, []⟩ }
      modifyCC cm co fuel st2 (some c) x.1.2
  else
    (removeConstr cm co fuel st c).bind fun x =>
      let sl := cm.parts_locs parts
      let st2 := { x.2 with analyses := mapInsert x.2.analyses c ⟨x.1.1, x.1.2, sl⟩ }
      parts.foldlM (fun s part => modifyCC cm co fuel s (some part) x.1.2) st2

/-- get_construction_count(construction): the stored count of a real leaf
(raising when it is non-positive, naming the construction), otherwise 0. -/
def getConstructionCount [DecidableEq κ] [DecidableEq Loc] (st : ModelState κ Loc C) (c : κ) :
    Except (MErr κ) Int :=
  match mapLookup st.analyses c with
  | some node =>
    if node.splitloc = [] then
      if node.count ≤ 0 then .error (.constrCount c node.count) else .ok node.count
    else .ok 0
  | none => .ok 0

/-- segment(compound): raises SegmentOnlyModelException on a frozen model
(the check is re-entered on every recursive call), KeyError on an unknown
compound, otherwise concatenates the leaves of the stored split tree. -/
def segmentM (cm : CMethods κ Loc) [DecidableEq κ] [DecidableEq Loc] :
    Nat → ModelState κ Loc C → κ → Except (MErr κ) (List κ)
  | 0, _, _ => .error .fuelOut
  | fuel + 1, st, c =>
    if st.segment_only then .error .segmentOnly
    else
      match mapLookup st.analyses c with
      | none => .error .keyError
      | some node =>
        if node.splitloc ≠ [] then
          (cm.splitl c node.splitloc).foldlM
            (fun acc part => (segmentM cm fuel st part).map (fun segs => acc ++ segs)) []
        else .ok [c]

/-- make_segment_only(): set the flag and drop every virtual node. -/
def makeSegmentOnly (st : ModelState κ Loc C) : ModelState κ Loc C :=
  { st with segment_only := true,
            analyses := st.analyses.filter fun kv => kv.2.splitloc.isEmpty }

/-! ### Instantiations -/

/-- Modelled from the spec: splitn of the baseline construction methods
(module morfessorcognate/constructions/base.py is not under src/): cutting an
atom sequence at the ascending positions (spec section 4.A). -/
def splitlStr : List Char → Nat → List Nat → List (List Char)
  | s, prev, [] => [s.drop prev]
  | s, prev, l :: ls => strSlice s prev l :: splitlStr s l ls

/-- Modelled from the spec: parts_to_splitlocs for the baseline: cumulative
lengths of all parts but the last. -/
def partsLocsStr : Nat → List (List Char) → List Nat
  | _, [] => []
  | _, [_] => []
  | cur, p :: rest => (cur + p.length) :: partsLocsStr (cur + p.length) rest

/-- Modelled from the spec: the baseline construction algebra on atom
sequences; split_locations is every interior position, force splits are
empty by default. -/
def baseCM : CMethods (List Char) Nat where
  split_locs c := List.range' 1 (c.length - 1)
  split2 c loc := (c.take loc, c.drop loc)
  splitl c locs := splitlStr c 0 locs
  force_locs _ := []
  parts_locs parts := partsLocsStr 0 parts

/-- The cognate construction algebra packaged for the model. -/
def cogCM : CMethods CogConstr (Nat × Nat) where
  split_locs c := split_locations c none none
  split2 := splitAt2
  splitl := splitn
  force_locs := force_split_locations
  parts_locs := parts_to_splitlocs

/-- The baseline cost operations (Cost with atom-sequence keys). -/
noncomputable def baseCostOps : CostOps (List Char) (CostState (List Char)) where
  update S c d := costUpdate id S c d
  update_bounds S _ d := costUpdateBoundaries S d
  total := costCost

/-- The cognate cost operations (CognateCost). -/
noncomputable def cogCostOps : CostOps CogConstr CogCostState where
  update := cogCostUpdate
  update_bounds := cogCostUpdateBoundaries
  total := cogCostCost

/-- A fresh baseline model (corpusweight 1). -/
def freshBaseModel : ModelState (List Char) Nat (CostState (List Char)) :=
  ⟨[], false, freshCost (List Char) 1⟩

/-- A fresh cognate model (corpusweight None, hence 1). -/
def freshCogModel : ModelState CogConstr (Nat × Nat) CogCostState :=
  ⟨[], false, freshCogCost⟩

/-! ### Step lemmas for _modify_construction_count -/

section ModifySteps

variable {κ Loc C : Type} [DecidableEq κ] [DecidableEq Loc]
variable (cm : CMethods κ Loc) (co : CostOps κ C)

/-- Unfolding modifyCC on a real leaf node. -/
theorem modifyCC_leaf (fuel : Nat) (st : ModelState κ Loc C) (c : κ) (d r n : Int)
    (hf : 0 < fuel) (hd : d ≠ 0) (h : mapLookup st.analyses c = some ⟨r, n, []⟩) :
    modifyCC cm co fuel st (some c) d =
      some ⟨if n + d = 0 then mapErase st.analyses c
            else mapInsert st.analyses c ⟨r, n + d, []⟩,
            st.segment_only, co.update st.cost c (n + d - n)⟩ := by
  obtain ⟨f, rfl⟩ : ∃ f, fuel = f + 1 := ⟨fuel - 1, by omega⟩
  simp only [modifyCC, h, if_neg hd]
  simp

/-- Unfolding modifyCC on an absent node. -/
theorem modifyCC_absent (fuel : Nat) (st : ModelState κ Loc C) (c : κ) (d : Int)
    (hf : 0 < fuel) (hd : d ≠ 0) (h : mapLookup st.analyses c = none) :
    modifyCC cm co fuel st (some c) d =
      some ⟨if 0 + d = 0 then mapErase st.analyses c
            else mapInsert st.analyses c ⟨0, 0 + d, []⟩,
            st.segment_only, co.update st.cost c (0 + d - 0)⟩ := by
  obtain ⟨f, rfl⟩ : ∃ f, fuel = f + 1 := ⟨fuel - 1, by omega⟩
  simp only [modifyCC, h, if_neg hd]
  simp

/-- Unfolding modifyCC on a virtual node: store update then child recursion. -/
theorem modifyCC_virtual (fuel : Nat) (st : ModelState κ Loc C) (c : κ)
    (d r n : Int) (sl : List Loc) (hf : 0 < fuel) (hd : d ≠ 0) (hsl : sl ≠ [])
    (h : mapLookup st.analyses c = some ⟨r, n, sl⟩) :
    modifyCC cm co fuel st (some c) d =
      (cm.splitl c sl).foldlM
        (fun s child => modifyCC cm co (fuel - 1) s (some child) d)
        ⟨if n + d = 0 then mapErase st.analyses c
          else mapInsert st.analyses c ⟨r, n + d, sl⟩,
          st.segment_only, st.cost⟩ := by
  obtain ⟨f, rfl⟩ : ∃ f, fuel = f + 1 := ⟨fuel - 1, by omega⟩
  simp only [modifyCC, h, if_neg hd, Nat.add_sub_cancel]
  simp [hsl]

/-- Uniform unfolding of modifyCC on a construction whose node (defaulting to
the fresh (0, 0, []) when absent, as the source does) is a real leaf; the
cost delta newcount - count always equals dcount. -/
theorem modifyCC_step (fuel : Nat) (st : ModelState κ Loc C) (c : κ) (d : Int)
    (hf : 0 < fuel) (hd : d ≠ 0)
    (h : ((mapLookup st.analyses c).getD ⟨0, 0, []⟩).splitloc = []) :
    modifyCC cm co fuel st (some c) d =
      some ⟨if ((mapLookup st.analyses c).getD ⟨0, 0, []⟩).count + d = 0
            then mapErase st.analyses c
            else mapInsert st.analyses c
              ⟨((mapLookup st.analyses c).getD ⟨0, 0, []⟩).rcount,
               ((mapLookup st.analyses c).getD ⟨0, 0, []⟩).count + d, []⟩,
            st.segment_only, co.update st.cost c d⟩ := by
  match hm : mapLookup st.analyses c with
  | some nd =>
    obtain ⟨r, n, sl⟩ := nd
    rw [hm] at h
    simp only [Option.getD_some] at h
    subst h
    rw [modifyCC_leaf cm co fuel st c d r n hf hd hm]
    rw [show (n + d - n : Int) = d by omega]
    simp only [Option.getD_some]
  | none =>
    rw [modifyCC_absent cm co fuel st c d hf hd hm]
    simp only [Option.getD_none]
    rw [show ((0 : Int) + d - 0) = d by omega]

/-- modifyCC ignores a None construction. -/
theorem modifyCC_none (fuel : Nat) (st : ModelState κ Loc C) (d : Int)
    (hf : 0 < fuel) : modifyCC cm co fuel st none d = some st := by
  obtain ⟨f, rfl⟩ : ∃ f, fuel = f + 1 := ⟨fuel - 1, by omega⟩
  rfl

/-- modifyCC ignores a zero delta. -/
theorem modifyCC_zero (fuel : Nat) (st : ModelState κ Loc C) (c : κ)
    (hf : 0 < fuel) : modifyCC cm co fuel st (some c) 0 = some st := by
  obtain ⟨f, rfl⟩ : ∃ f, fuel = f + 1 := ⟨fuel - 1, by omega⟩
  simp [modifyCC]

end ModifySteps

/-- CognateModel.get_construction_count: a projection reads the opposite
sub-cost counter of its concrete side (Counter access, defaulting to 0 and
never raising); only a full pair falls back to the baseline behaviour. -/
def cogGetConstructionCount (st : ModelState CogConstr (Nat × Nat) CogCostState)
    (c : CogConstr) : Except (MErr CogConstr) Int :=
  if c.src = .wild then .ok (counterGet st.cost.trg_cost.counts c.trg)
  else if c.trg = .wild then .ok (counterGet st.cost.src_cost.counts c.src)
  else getConstructionCount st c

/-- C10: on projections, get_construction_count returns the concrete side's
sub-cost counter (source counter for (s, WILDCARD), target counter for
(WILDCARD, t)), ignoring the analysis store and never raising; on full pairs
it is the baseline lookup: stored count of a real leaf, error naming the
construction when that count is non-positive, and 0 for virtual or absent
nodes. -/
theorem C10_get_construction_count :
    (∀ (st : ModelState CogConstr (Nat × Nat) CogCostState) (t : Side),
        cogGetConstructionCount st ⟨.wild, t⟩ =
          .ok (counterGet st.cost.trg_cost.counts t)) ∧
    (∀ (st : ModelState CogConstr (Nat × Nat) CogCostState) (s : Side),
        s ≠ .wild →
        cogGetConstructionCount st ⟨s, .wild⟩ =
          .ok (counterGet st.cost.src_cost.counts s)) ∧
    (∀ (st : ModelState CogConstr (Nat × Nat) CogCostState) (c : CogConstr),
        c.src ≠ .wild → c.trg ≠ .wild →
        cogGetConstructionCount st c = getConstructionCount st c) ∧
    (∀ (st : ModelState CogConstr (Nat × Nat) CogCostState) (c : CogConstr)
        (r n : Int) (sl : List (Nat × Nat)),
        mapLookup st.analyses c = some ⟨r, n, sl⟩ →
        getConstructionCount st c =
          if sl = [] then
            if n ≤ 0 then .error (.constrCount c n) else .ok n
          else .ok 0) ∧
    (∀ (st : ModelState CogConstr (Nat × Nat) CogCostState) (c : CogConstr),
        mapLookup st.analyses c = none → getConstructionCount st c = .ok 0) := by
  refine ⟨fun st t => ?_, fun st s hs => ?_, fun st c hs ht => ?_,
    fun st c r n sl h => ?_, fun st c h => ?_⟩
  · simp [cogGetConstructionCount]
  · simp [cogGetConstructionCount, hs]
  · simp [cogGetConstructionCount, hs, ht]
  · simp [getConstructionCount, h]
  · simp [getConstructionCount, h]

/-- C10 (witness): the characterization applied at a concrete model whose
source counter holds 5 for x, with a virtual pair node in the store. -/
theorem C10_get_construction_count_witness :
    cogGetConstructionCount
        ⟨[(⟨.str ['x'], .str ['y']⟩, ⟨1, 2, [(1, 1)]⟩)], false,
          { freshCogCost with
              src_cost := { freshCost Side 1 with counts := [(.str ['x'], 5)] } }⟩
        ⟨.str ['x'], .wild⟩ = .ok 5 := by
  rw [C10_get_construction_count.2.1 _ (.str ['x']) (by decide)]
  rfl

/-! ### C4: remove -/

/-- C4 (counterexample): on a model holding xy as a real leaf with count 1,
remove returns (rcount, count) = (1, 1) but afterwards the node is gone from
the store (modify_construction_count deletes zero-count nodes), not present
with count 0 as claimed. -/
theorem C4_remove_counterexample :
    (removeConstr baseCM baseCostOps 1
          ⟨[(['x', 'y'], ⟨1, 1, []⟩)], false, freshCost (List Char) 1⟩
          ['x', 'y']).map
        (fun x => (x.1, mapLookup x.2.analyses ['x', 'y'])) =
      some ((1, 1), none) := rfl

/-- C4 (amended): for a real leaf (empty splitloc) present with count n not
0, remove(c) returns (rcount, count), applies modify_construction_count with
delta -count (one cost update), and afterwards the node for c is absent from
the store — deleted, not kept at count 0 — while every other key is
untouched. -/
theorem C4_remove {κ Loc C : Type} [DecidableEq κ] [DecidableEq Loc]
    (cm : CMethods κ Loc) (co : CostOps κ C) (fuel : Nat)
    (st : ModelState κ Loc C) (c : κ) (r n : Int)
    (h : mapLookup st.analyses c = some ⟨r, n, []⟩) (hn : n ≠ 0) (hf : 0 < fuel) :
    ∃ st', removeConstr cm co fuel st c = some ((r, n), st') ∧
      mapLookup st'.analyses c = none ∧
      st'.cost = co.update st.cost c (-n) ∧
      st'.segment_only = st.segment_only ∧
      ∀ k, k ≠ c → mapLookup st'.analyses k = mapLookup st.analyses k := by
  obtain ⟨f, rfl⟩ : ∃ f, fuel = f + 1 := ⟨fuel - 1, by omega⟩
  refine ⟨⟨mapErase st.analyses c, st.segment_only, co.update st.cost c (-n)⟩,
    ?_, ?_, rfl, rfl, ?_⟩
  · have hm := modifyCC_leaf cm co (f + 1) st c (-n) r n (by omega) (by omega) h
    rw [if_pos (by omega : n + -n = 0)] at hm
    have he : n + -n - n = -n := by omega
    rw [he] at hm
    simp [removeConstr, h, hm]
  · exact mapLookup_erase_self _ _
  · intro k hk
    exact mapLookup_erase_ne _ _ _ hk

/-- C4 (witness): the amended statement at a concrete model. -/
theorem C4_remove_witness :
    ∃ st', removeConstr baseCM baseCostOps 1
          ⟨[(['a'], ⟨2, 3, []⟩)], false, freshCost (List Char) 1⟩ ['a'] =
        some ((2, 3), st') ∧
      mapLookup st'.analyses ['a'] = none ∧
      st'.cost = baseCostOps.update (freshCost (List Char) 1) ['a'] (-3) ∧
      st'.segment_only = false ∧
      ∀ k, k ≠ ['a'] →
        mapLookup st'.analyses k =
          mapLookup [((['a'] : List Char), (⟨2, 3, []⟩ : ConstrNode Nat))] k := by
  have h := C4_remove baseCM baseCostOps 1
    ⟨[(['a'], ⟨2, 3, []⟩)], false, freshCost (List Char) 1⟩ ['a'] 2 3
    (by rfl) (by decide) (by decide)
  exact h

/-! ### C9: segment on a frozen model -/

/-- C9 (counterexample): freezing a model keeps the loaded leaf compound in
the store, yet segment raises SegmentOnlyModelException afterwards (its
first statement is the _check_segment_only guard), while before freezing the
same call returned the leaf segmentation. -/
theorem C9_segment_counterexample :
    segmentM baseCM 2 ⟨[(['a', 'b'], ⟨1, 1, []⟩)], false, freshCost (List Char) 1⟩
        ['a', 'b'] = .ok [['a', 'b']] ∧
      mapLookup (makeSegmentOnly
          (⟨[(['a', 'b'], ⟨1, 1, []⟩)], false, freshCost (List Char) 1⟩ :
            ModelState (List Char) Nat (CostState (List Char)))).analyses
          ['a', 'b'] = some ⟨1, 1, []⟩ ∧
      segmentM baseCM 2 (makeSegmentOnly
          ⟨[(['a', 'b'], ⟨1, 1, []⟩)], false, freshCost (List Char) 1⟩)
          ['a', 'b'] = .error .segmentOnly :=
  ⟨rfl, rfl, rfl⟩

/-- C9 (amended): make_segment_only sets the flag, and on a flagged model
segment always raises SegmentOnlyModelException — the guard protects the
read-only segment as well, so the exception is not limited to mutating
operations and segment does not return the leaf segmentation. -/
theorem C9_segment_only {κ Loc C : Type} [DecidableEq κ] [DecidableEq Loc]
    (cm : CMethods κ Loc) (st : ModelState κ Loc C) (c : κ) (fuel : Nat)
    (h : st.segment_only = true) :
    segmentM cm (fuel + 1) st c = .error .segmentOnly ∧
      (makeSegmentOnly st).segment_only = true := by
  constructor
  · unfold segmentM
    rw [h]
    simp
  · rfl

/-- C9 (witness): the amended statement at a concrete frozen model. -/
theorem C9_segment_only_witness :
    segmentM baseCM 1 ⟨[], true, freshCost (List Char) 1⟩ ['a'] =
      .error .segmentOnly :=
  (C9_segment_only baseCM ⟨[], true, freshCost (List Char) 1⟩ ['a'] 0 rfl).1

/-! ### C3: add then subtract a compound -/

/-- C3 (counterexample): on a fresh cognate model, add_compound((x,y), 1)
succeeds, but the following add_compound((x,y), -1) raises KeyError: the
count update deletes the zero-count node and the rcount bump then reads the
deleted key. -/
theorem C3_add_remove_counterexample :
    (addCompound cogCM cogCostOps 3 freshCogModel ⟨.str ['x'], .str ['y']⟩ 1).bind
        (fun st => addCompound cogCM cogCostOps 3 st ⟨.str ['x'], .str ['y']⟩ (-1)) =
      none := rfl

/-- Auxiliary: a cognate cost whose six books all hold zero boundaries costs
exactly 0 (every get_cost takes its empty-book branch). -/
theorem cogCostCost_eq_zero (S : CogCostState)
    (h1 : S.src_cost.lex.boundaries = 0) (h2 : S.src_cost.corp.boundaries = 0)
    (h3 : S.trg_cost.lex.boundaries = 0) (h4 : S.trg_cost.corp.boundaries = 0)
    (h5 : S.edit_cost.lex.boundaries = 0) (h6 : S.edit_cost.corp.boundaries = 0) :
    cogCostCost S = 0 := by
  unfold cogCostCost costCost lexGetCost corpGetCost
  rw [if_pos h1, if_pos h2, if_pos h3, if_pos h4, if_pos h5, if_pos h6]
  ring

/-- C3 (amended): add_compound((x,y), 1) succeeds; the second
add_compound((x,y), -1) does not complete normally but raises KeyError —
however, its boundary and count updates do go through first, and at that
point the analysis store is empty and cost() is exactly 0 again. -/
theorem C3_add_remove :
    ∃ S1, addCompound cogCM cogCostOps 3 freshCogModel ⟨.str ['x'], .str ['y']⟩ 1 =
        some S1 ∧
      addCompound cogCM cogCostOps 3 S1 ⟨.str ['x'], .str ['y']⟩ (-1) = none ∧
      ∃ S2, addCompoundBody cogCM cogCostOps 3 S1 ⟨.str ['x'], .str ['y']⟩ (-1) =
          some S2 ∧
        S2.analyses = [] ∧ cogCostCost S2.cost = 0 := by
  refine ⟨_, rfl, rfl, _, rfl, rfl, ?_⟩
  exact cogCostCost_eq_zero _ rfl rfl rfl rfl rfl rfl

/-! ### C1 (counterexample): the projection invariant does not survive
add_compound -/

/-- C1 (counterexample): after add_compound((ab, cd), 1) on a fresh cognate
model, the pair is present with count 1 > 0 and both sides non-wildcard, yet
neither projection (ab, WILDCARD) nor (WILDCARD, cd) exists in the analysis
store — nothing in add_compound creates them.  The invariant therefore does
not hold after every operation. -/
theorem C1_projection_counterexample :
    ∃ S, addCompound cogCM cogCostOps 3 freshCogModel
          ⟨.str ['a', 'b'], .str ['c', 'd']⟩ 1 = some S ∧
      mapLookup S.analyses ⟨.str ['a', 'b'], .str ['c', 'd']⟩ = some ⟨1, 1, []⟩ ∧
      (Side.str ['a', 'b'] ≠ Side.wild ∧ Side.str ['c', 'd'] ≠ Side.wild) ∧
      mapLookup S.analyses ⟨.str ['a', 'b'], .wild⟩ = none ∧
      mapLookup S.analyses ⟨.wild, .str ['c', 'd']⟩ = none := by
  refine ⟨_, rfl, rfl, ⟨by decide, by decide⟩, rfl, rfl⟩

/-! ### The recursive-split optimizer (baseline.py _recursive_split) -/

/-- The two lines of the candidate loop that keep the running minimum:
accept whenever cost is at most the current minimum, so a later tied
position overwrites an earlier one. -/
noncomputable def bestStep {Loc : Type} (acc : ℝ × Option Loc) (e : Loc × ℝ) :
    ℝ × Option Loc :=
  if e.2 ≤ acc.1 then (e.2, some e.1) else acc

variable {κ Loc C : Type}

/-- The candidate loop of _recursive_split: for each location, temporarily
add both halves at the node count, read the total cost, undo, and keep the
running (mincost, best_splitloc) via bestStep. -/
noncomputable def recSplitLoop (cm : CMethods κ Loc) (co : CostOps κ C)
    [DecidableEq κ] [DecidableEq Loc] (fuel : Nat) (count : Int) (c : κ) :
    List Loc → ModelState κ Loc C × ℝ × Option Loc →
      Option (ModelState κ Loc C × ℝ × Option Loc)
  | [], acc => some acc
  | loc :: ls, acc =>
    let ps := cm.split2 c loc
    (modifyCC cm co fuel acc.1 (some ps.1) count).bind fun st1 =>
    (modifyCC cm co fuel st1 (some ps.2) count).bind fun st2 =>
    (modifyCC cm co fuel st2 (some ps.1) (-count)).bind fun st3 =>
    (modifyCC cm co fuel st3 (some ps.2) (-count)).bind fun st4 =>
    recSplitLoop cm co fuel count c ls
      (st4, bestStep acc.2 (loc, co.total st2.cost))

/-- _recursive_split(construction): detach, measure the no-split cost as the
initial minimum, try every binary split, and commit the best found (a
best_splitloc of None is falsy, as is no location at all, since every
enumerated location is truthy) — recursing into prefix and suffix, with the
suffix recursion skipped when it equals the prefix; otherwise reinstate the
construction as a real leaf. -/
noncomputable def recursiveSplit (cm : CMethods κ Loc) (co : CostOps κ C)
    [DecidableEq κ] [DecidableEq Loc] :
    Nat → ModelState κ Loc C → κ → Option (ModelState κ Loc C × List κ)
  | 0, _, _ => none
  | fuel + 1, st, c =>
    (removeConstr cm co (fuel + 1) st c).bind fun rx =>
    (modifyCC cm co (fuel + 1) rx.2 (some c) rx.1.2).bind fun stA =>
    (modifyCC cm co (fuel + 1) stA (some c) (-rx.1.2)).bind fun stB =>
    (recSplitLoop cm co (fuel + 1) rx.1.2 c (cm.split_locs c)
        (stB, co.total stA.cost, none)).bind fun lres =>
    match lres.2.2 with
    | some loc =>
      let stD := { lres.1 with
        analyses := mapInsert lres.1.analyses c ⟨rx.1.1, rx.1.2, [loc]⟩ }
      let ps := cm.split2 c loc
      (modifyCC cm co (fuel + 1) stD (some ps.1) rx.1.2).bind fun stE =>
      (modifyCC cm co (fuel + 1) stE (some ps.2) rx.1.2).bind fun stF =>
      (recursiveSplit cm co fuel stF ps.1).bind fun pres =>
      if ps.2 ≠ ps.1 then
        (recursiveSplit cm co fuel pres.1 ps.2).map fun sres =>
          (sres.1, pres.2 ++ sres.2)
      else some (pres.1, pres.2 ++ pres.2)
    | none =>
      let stD := { lres.1 with
        analyses := mapInsert lres.1.analyses c ⟨rx.1.1, 0, []⟩ }
      (modifyCC cm co (fuel + 1) stD (some c) rx.1.2).map fun stE => (stE, [c])

/-- Unfolding recursiveSplit at positive fuel. -/
theorem recursiveSplit_succ (cm : CMethods κ Loc) (co : CostOps κ C)
    [DecidableEq κ] [DecidableEq Loc] (fuel : Nat) (st : ModelState κ Loc C)
    (c : κ) (hf : 0 < fuel) :
    recursiveSplit cm co fuel st c =
      ((removeConstr cm co fuel st c).bind fun rx =>
      (modifyCC cm co fuel rx.2 (some c) rx.1.2).bind fun stA =>
      (modifyCC cm co fuel stA (some c) (-rx.1.2)).bind fun stB =>
      (recSplitLoop cm co fuel rx.1.2 c (cm.split_locs c)
          (stB, co.total stA.cost, none)).bind fun lres =>
      match lres.2.2 with
      | some loc =>
        let stD := { lres.1 with
          analyses := mapInsert lres.1.analyses c ⟨rx.1.1, rx.1.2, [loc]⟩ }
        let ps := cm.split2 c loc
        (modifyCC cm co fuel stD (some ps.1) rx.1.2).bind fun stE =>
        (modifyCC cm co fuel stE (some ps.2) rx.1.2).bind fun stF =>
        (recursiveSplit cm co (fuel - 1) stF ps.1).bind fun pres =>
        if ps.2 ≠ ps.1 then
          (recursiveSplit cm co (fuel - 1) pres.1 ps.2).map fun sres =>
            (sres.1, pres.2 ++ sres.2)
        else some (pres.1, pres.2 ++ pres.2)
      | none =>
        let stD := { lres.1 with
          analyses := mapInsert lres.1.analyses c ⟨rx.1.1, 0, []⟩ }
        (modifyCC cm co fuel stD (some c) rx.1.2).map fun stE => (stE, [c])) := by
  obtain ⟨f, rfl⟩ : ∃ f, fuel = f + 1 := ⟨fuel - 1, by omega⟩
  simp only [recursiveSplit, Nat.add_sub_cancel]

/-- _recursive_optimize(compound): split at the forced locations (none by
default), then recursively split each part; with a single part this is a
plain recursive split of the compound. -/
noncomputable def recursiveOptimize (cm : CMethods κ Loc) (co : CostOps κ C)
    [DecidableEq κ] [DecidableEq Loc] (fuel : Nat) (st : ModelState κ Loc C)
    (c : κ) : Option (ModelState κ Loc C × List κ) :=
  let parts := cm.splitl c (cm.force_locs c)
  if parts.length = 1 then recursiveSplit cm co fuel st c
  else
    (setCompoundAnalysis cm co fuel st c parts).bind fun st1 =>
    parts.foldlM (fun acc part =>
        (recursiveSplit cm co fuel acc.1 part).map fun r => (r.1, acc.2 ++ r.2))
      (st1, ([] : List κ))

/-! ### The cognate override of _recursive_split (cognate.py 66-168): while
splitting a pair with two concrete sides, the corresponding wildcard
projections are detached alongside, modified in lockstep inside the
candidate loop, and committed with the same best split location. -/

/-- Detaching one wildcard projection: when it is in the store it is removed
(its rcount and count returned), otherwise it is dropped (None, counts 0). -/
noncomputable def cogDetachWild (fuel : Nat)
    (st : ModelState CogConstr (Nat × Nat) CogCostState) (w : CogConstr) :
    Option (Option CogConstr × Int × Int ×
      ModelState CogConstr (Nat × Nat) CogCostState) :=
  match mapLookup st.analyses w with
  | some _ => (removeConstr cogCM cogCostOps fuel st w).map fun y =>
      (some w, y.1.1, y.1.2, y.2)
  | none => some ((none : Option CogConstr), 0, 0, st)

/-- One lockstep wildcard modification inside the candidate loop: split the
projection (when present) at the candidate location and modify both halves
by d; a dropped projection is a no-op. -/
noncomputable def cogWildStep (fuel : Nat) (w : Option CogConstr) (d : Int)
    (loc : Nat × Nat) (st : ModelState CogConstr (Nat × Nat) CogCostState) :
    Option (ModelState CogConstr (Nat × Nat) CogCostState) :=
  match w with
  | none => some st
  | some wc =>
    let ps := cogCM.split2 wc loc
    (modifyCC cogCM cogCostOps fuel st (some ps.1) d).bind fun s1 =>
      modifyCC cogCM cogCostOps fuel s1 (some ps.2) d

/-- The candidate loop of the cognate _recursive_split: the pair halves and
the projection halves are all added at their respective counts, the total
cost is read, everything is undone, and bestStep keeps the running minimum. -/
noncomputable def cogRecSplitLoop (fuel : Nat) (count : Int) (c : CogConstr)
    (wsrc : Option CogConstr) (scount : Int)
    (wtrg : Option CogConstr) (tcount : Int) :
    List (Nat × Nat) →
      ModelState CogConstr (Nat × Nat) CogCostState × ℝ × Option (Nat × Nat) →
      Option (ModelState CogConstr (Nat × Nat) CogCostState × ℝ × Option (Nat × Nat))
  | [], acc => some acc
  | loc :: ls, acc =>
    let ps := cogCM.split2 c loc
    (modifyCC cogCM cogCostOps fuel acc.1 (some ps.1) count).bind fun st1 =>
    (modifyCC cogCM cogCostOps fuel st1 (some ps.2) count).bind fun st2 =>
    (cogWildStep fuel wsrc scount loc st2).bind fun st3 =>
    (cogWildStep fuel wtrg tcount loc st3).bind fun st4 =>
    (modifyCC cogCM cogCostOps fuel st4 (some ps.1) (-count)).bind fun st5 =>
    (modifyCC cogCM cogCostOps fuel st5 (some ps.2) (-count)).bind fun st6 =>
    (cogWildStep fuel wsrc (-scount) loc st6).bind fun st7 =>
    (cogWildStep fuel wtrg (-tcount) loc st7).bind fun st8 =>
    cogRecSplitLoop fuel count c wsrc scount wtrg tcount ls
      (st8, bestStep acc.2 (loc, cogCostCost st4.cost))

/-- Committing one wildcard projection as a virtual node with the pair's best
split location, then adding both of its halves. -/
noncomputable def cogCommitWild (fuel : Nat) (w : Option CogConstr) (rc k : Int)
    (loc : Nat × Nat) (st : ModelState CogConstr (Nat × Nat) CogCostState) :
    Option (ModelState CogConstr (Nat × Nat) CogCostState) :=
  match w with
  | none => some st
  | some wc =>
    let st1 := { st with analyses := mapInsert st.analyses wc ⟨rc, k, [loc]⟩ }
    let ps := cogCM.split2 wc loc
    (modifyCC cogCM cogCostOps fuel st1 (some ps.1) k).bind fun s2 =>
      modifyCC cogCM cogCostOps fuel s2 (some ps.2) k

/-- Reinstating one wildcard projection as a real leaf at its old count. -/
noncomputable def cogLeafWild (fuel : Nat) (w : Option CogConstr) (rc k : Int)
    (st : ModelState CogConstr (Nat × Nat) CogCostState) :
    Option (ModelState CogConstr (Nat × Nat) CogCostState) :=
  match w with
  | none => some st
  | some wc =>
    let st1 := { st with analyses := mapInsert st.analyses wc ⟨rc, 0, []⟩ }
    modifyCC cogCM cogCostOps fuel st1 (some wc) k

/-- CognateModel._recursive_split: detach the pair and (for a pair with two
concrete sides) its wildcard projections, take the no-split cost of all of
them as the initial minimum, try every binary split with the projections
split in lockstep, and commit the best location to the pair and both
projections alike — recursing into the pair's prefix and suffix; with no
accepted location all three are reinstated as real leaves. -/
noncomputable def cogRecursiveSplit :
    Nat → ModelState CogConstr (Nat × Nat) CogCostState → CogConstr →
      Option (ModelState CogConstr (Nat × Nat) CogCostState × List CogConstr)
  | 0, _, _ => none
  | fuel + 1, st, c =>
    (removeConstr cogCM cogCostOps (fuel + 1) st c).bind fun rx =>
    (if c.src ≠ Side.wild ∧ c.trg ≠ Side.wild then
        (cogDetachWild (fuel + 1) rx.2 ⟨c.src, Side.wild⟩).bind fun ws =>
        (cogDetachWild (fuel + 1) ws.2.2.2 ⟨Side.wild, c.trg⟩).map fun wt =>
          (ws, wt)
      else some (((none : Option CogConstr), 0, 0, rx.2),
        ((none : Option CogConstr), 0, 0, rx.2))).bind fun wx =>
    (modifyCC cogCM cogCostOps (fuel + 1) wx.2.2.2.2 (some c) rx.1.2).bind fun stA1 =>
    (modifyCC cogCM cogCostOps (fuel + 1) stA1 wx.1.1 wx.1.2.2.1).bind fun stA2 =>
    (modifyCC cogCM cogCostOps (fuel + 1) stA2 wx.2.1 wx.2.2.2.1).bind fun stA3 =>
    (modifyCC cogCM cogCostOps (fuel + 1) stA3 (some c) (-rx.1.2)).bind fun stB1 =>
    (modifyCC cogCM cogCostOps (fuel + 1) stB1 wx.1.1 (-wx.1.2.2.1)).bind fun stB2 =>
    (modifyCC cogCM cogCostOps (fuel + 1) stB2 wx.2.1 (-wx.2.2.2.1)).bind fun stB3 =>
    (cogRecSplitLoop (fuel + 1) rx.1.2 c wx.1.1 wx.1.2.2.1 wx.2.1 wx.2.2.2.1
        (cogCM.split_locs c) (stB3, cogCostCost stA3.cost, none)).bind fun lres =>
    match lres.2.2 with
    | some loc =>
      let stD := { lres.1 with
        analyses := mapInsert lres.1.analyses c ⟨rx.1.1, rx.1.2, [loc]⟩ }
      let ps := cogCM.split2 c loc
      (modifyCC cogCM cogCostOps (fuel + 1) stD (some ps.1) rx.1.2).bind fun stE =>
      (modifyCC cogCM cogCostOps (fuel + 1) stE (some ps.2) rx.1.2).bind fun stF =>
      (cogCommitWild (fuel + 1) wx.1.1 wx.1.2.1 wx.1.2.2.1 loc stF).bind fun stG =>
      (cogCommitWild (fuel + 1) wx.2.1 wx.2.2.1 wx.2.2.2.1 loc stG).bind fun stH =>
      (cogRecursiveSplit fuel stH ps.1).bind fun pres =>
      if ps.2 ≠ ps.1 then
        (cogRecursiveSplit fuel pres.1 ps.2).map fun sres =>
          (sres.1, pres.2 ++ sres.2)
      else some (pres.1, pres.2 ++ pres.2)
    | none =>
      let stD := { lres.1 with
        analyses := mapInsert lres.1.analyses c ⟨rx.1.1, 0, []⟩ }
      (modifyCC cogCM cogCostOps (fuel + 1) stD (some c) rx.1.2).bind fun stE =>
      (cogLeafWild (fuel + 1) wx.1.1 wx.1.2.1 wx.1.2.2.1 stE).bind fun stF =>
      (cogLeafWild (fuel + 1) wx.2.1 wx.2.2.1 wx.2.2.2.1 stF).map fun stG =>
        (stG, [c])

/-! ### Tie-break characterization of the candidate loop -/

/-- Auxiliary: bestStep accepts a candidate at or below the running minimum. -/
theorem bestStep_of_le {Loc : Type} (acc : ℝ × Option Loc) (e : Loc × ℝ)
    (h : e.2 ≤ acc.1) : bestStep acc e = (e.2, some e.1) := by
  unfold bestStep; rw [if_pos h]

/-- Auxiliary: bestStep rejects a candidate above the running minimum. -/
theorem bestStep_of_gt {Loc : Type} (acc : ℝ × Option Loc) (e : Loc × ℝ)
    (h : ¬ e.2 ≤ acc.1) : bestStep acc e = acc := by
  unfold bestStep; rw [if_neg h]

/-- Auxiliary: folding bestStep never raises the minimum above any lower
bound of the candidates and the start value. -/
theorem bestStep_min_le {Loc : Type} (m : ℝ) :
    ∀ (l : List (Loc × ℝ)) (acc : ℝ × Option Loc), m ≤ acc.1 →
      (∀ e ∈ l, m ≤ e.2) → m ≤ (List.foldl bestStep acc l).1 := by
  intro l
  induction l with
  | nil => intro acc h _; simpa using h
  | cons e l ih =>
    intro acc hacc hall
    rw [List.foldl_cons]
    refine ih _ ?_ fun x hx => hall x (List.mem_cons_of_mem _ hx)
    by_cases he : e.2 ≤ acc.1
    · rw [bestStep_of_le _ _ he]; exact hall e (List.mem_cons_self _ _)
    · rw [bestStep_of_gt _ _ he]; exact hacc

/-- Auxiliary: once the accumulator holds the strict minimum, later strictly
larger candidates leave it unchanged. -/
theorem bestStep_stay {Loc : Type} (p : Loc) (m : ℝ) :
    ∀ l2 : List (Loc × ℝ), (∀ e ∈ l2, m < e.2) →
      List.foldl bestStep (m, some p) l2 = (m, some p) := by
  intro l2
  induction l2 with
  | nil => intro _; rfl
  | cons e l ih =>
    intro h
    rw [List.foldl_cons]
    have he : ¬ e.2 ≤ m := not_le.mpr (h e (List.mem_cons_self _ _))
    rw [bestStep_of_gt _ _ he]
    exact ih fun x hx => h x (List.mem_cons_of_mem _ hx)

/-- Auxiliary: the last position attaining the minimal cost wins — if (p, m)
is at most the initial no-split cost and every other candidate's cost, and
every candidate enumerated after it is strictly above m, then the loop ends
with mincost m and best position p. -/
theorem bestStep_fold_lastmin {Loc : Type} (l1 l2 : List (Loc × ℝ)) (p : Loc)
    (m m0 : ℝ) (hm0 : m ≤ m0) (hall : ∀ e ∈ l1, m ≤ e.2)
    (hlater : ∀ e ∈ l2, m < e.2) :
    List.foldl bestStep ((m0, none) : ℝ × Option Loc) (l1 ++ (p, m) :: l2) =
      (m, some p) := by
  rw [List.foldl_append, List.foldl_cons]
  have h1 : m ≤ (List.foldl bestStep ((m0, none) : ℝ × Option Loc) l1).1 :=
    bestStep_min_le m l1 _ hm0 hall
  rw [bestStep_of_le _ (p, m) h1]
  exact bestStep_stay p m l2 hlater

/-! ### Projection lemmas for the packaged baseline algebra and cost, keeping
the structures opaque during symbolic execution. -/

theorem baseCM_split_locs (c : List Char) :
    baseCM.split_locs c = List.range' 1 (c.length - 1) := rfl

theorem baseCM_split2 (c : List Char) (loc : Nat) :
    baseCM.split2 c loc = (c.take loc, c.drop loc) := rfl

theorem baseCM_splitl (c : List Char) (locs : List Nat) :
    baseCM.splitl c locs = splitlStr c 0 locs := rfl

theorem baseCM_force_locs (c : List Char) : baseCM.force_locs c = [] := rfl

theorem baseCM_parts_locs (parts : List (List Char)) :
    baseCM.parts_locs parts = partsLocsStr 0 parts := rfl

theorem baseCostOps_update (S : CostState (List Char)) (c : List Char) (d : Int) :
    baseCostOps.update S c d = costUpdate id S c d := rfl

theorem baseCostOps_bounds (S : CostState (List Char)) (c : List Char) (d : Int) :
    baseCostOps.update_bounds S c d = costUpdateBoundaries S d := rfl

theorem baseCostOps_total (S : CostState (List Char)) :
    baseCostOps.total S = costCost S := rfl

/-! ### Evaluation lemmas for the encoding accumulators at the small counts
arising in the abab scenario. -/

@[simp] theorem encUpdateTerm_01 : encUpdateTerm 0 1 = 0 := by
  norm_num [encUpdateTerm]

@[simp] theorem encUpdateTerm_10 : encUpdateTerm 1 0 = 0 := by
  norm_num [encUpdateTerm]

@[simp] theorem encUpdateTerm_12 : encUpdateTerm 1 2 = 2 * Real.log 2 := by
  norm_num [encUpdateTerm]

@[simp] theorem encUpdateTerm_21 : encUpdateTerm 2 1 = -(2 * Real.log 2) := by
  norm_num [encUpdateTerm]

@[simp] theorem encUpdateTerm_02 : encUpdateTerm 0 2 = 2 * Real.log 2 := by
  norm_num [encUpdateTerm]

@[simp] theorem encUpdateTerm_20 : encUpdateTerm 2 0 = -(2 * Real.log 2) := by
  norm_num [encUpdateTerm]

@[simp] theorem logfactorial_0 : logfactorial 0 = 0 := by
  norm_num [logfactorial]

@[simp] theorem logfactorial_1 : logfactorial 1 = 0 := by
  norm_num [logfactorial]

@[simp] theorem logfactorial_2 : logfactorial 2 = Real.log 2 := by
  norm_num [logfactorial, Nat.factorial]

@[simp] theorem logfactorial_3 : logfactorial 3 = Real.log 6 := by
  norm_num [logfactorial, Nat.factorial]

@[simp] theorem logfactorial_4 : logfactorial 4 = Real.log 24 := by
  norm_num [logfactorial, Nat.factorial]

@[simp] theorem logfactorial_5 : logfactorial 5 = Real.log 120 := by
  norm_num [logfactorial, Nat.factorial]

/-- Auxiliary: log 4 in the log 2 basis. -/
theorem rlog4 : Real.log 4 = 2 * Real.log 2 := by
  rw [show (4 : ℝ) = 2 ^ 2 by norm_num, Real.log_pow]
  push_cast
  ring

/-- Auxiliary: log 6 in the basis. -/
theorem rlog6 : Real.log 6 = Real.log 2 + Real.log 3 := by
  rw [show (6 : ℝ) = 2 * 3 by norm_num, Real.log_mul (by norm_num) (by norm_num)]

/-- Auxiliary: log 24 in the basis. -/
theorem rlog24 : Real.log 24 = 3 * Real.log 2 + Real.log 3 := by
  rw [show (24 : ℝ) = 2 ^ 3 * 3 by norm_num,
    Real.log_mul (by positivity) (by norm_num), Real.log_pow]
  push_cast
  ring

/-- Auxiliary: log 120 in the basis. -/
theorem rlog120 : Real.log 120 = 3 * Real.log 2 + Real.log 3 + Real.log 5 := by
  rw [show (120 : ℝ) = 2 ^ 3 * (3 * 5) by norm_num,
    Real.log_mul (by positivity) (by norm_num), Real.log_pow,
    Real.log_mul (by norm_num) (by norm_num)]
  push_cast
  ring

/-- Auxiliary: collapsing the accumulator sum the lexicon builds for two
double atoms. -/
theorem two_log2_add : 2 * Real.log 2 + 2 * Real.log 2 = 4 * Real.log 2 := by
  ring

/-- Auxiliary: collapsing one undo step of the logtokensum accumulator. -/
theorem four_log2_sub : 4 * Real.log 2 + -(2 * Real.log 2) = 2 * Real.log 2 := by
  ring

/-- Auxiliary: a full undo returns the logtokensum accumulator to zero. -/
theorem two_log2_sub : 2 * Real.log 2 + -(2 * Real.log 2) = 0 := by
  ring

/-- Cost of the no-split trial state of abab: lexicon morph abab (atoms a, b
twice each), corpus one abab token and one boundary. -/
theorem evalA (K : List (List Char × Int)) :
    costCost ⟨K, ⟨1, 4, 4 * Real.log 2, [('a', 2), ('b', 2)]⟩, ⟨1, 1, 0, 1⟩⟩ =
      5 * Real.log 5 - Real.log 2 + Real.log 3 := by
  simp only [costCost, lexGetCost, corpGetCost, lexTypes, lexFreqDistCost,
    corpFreqDistCost, counterLen]
  norm_num
  rw [rlog24]
  ring

/-- Cost of the unbalanced trial states (a + bab and aba + b): two lexicon
morphs of total length 4, corpus two tokens. -/
theorem evalL1 (K : List (List Char × Int)) :
    costCost ⟨K, ⟨2, 4, 4 * Real.log 2, [('a', 2), ('b', 2)]⟩, ⟨1, 2, 0, 1⟩⟩ =
      9 * Real.log 3 + Real.log 5 := by
  simp only [costCost, lexGetCost, corpGetCost, lexTypes, lexFreqDistCost,
    corpFreqDistCost, counterLen]
  norm_num
  rw [rlog120, rlog6]
  ring

/-- Cost of the balanced trial state ab + ab: one lexicon morph ab, corpus
two ab tokens. -/
theorem evalB (K : List (List Char × Int)) :
    costCost ⟨K, ⟨1, 2, 0, [('a', 1), ('b', 1)]⟩, ⟨1, 2, 2 * Real.log 2, 1⟩⟩ =
      6 * Real.log 3 - 2 * Real.log 2 := by
  simp only [costCost, lexGetCost, corpGetCost, lexTypes, lexFreqDistCost,
    corpFreqDistCost, counterLen]
  norm_num
  ring

/-- Cost of the inner trial state a + b at count 2: two single-atom morphs,
corpus four tokens. -/
theorem evalI1 (K : List (List Char × Int)) :
    costCost ⟨K, ⟨2, 2, 0, [('a', 1), ('b', 1)]⟩, ⟨1, 4, 4 * Real.log 2, 1⟩⟩ =
      Real.log 2 + 2 * Real.log 3 + 5 * Real.log 5 := by
  simp only [costCost, lexGetCost, corpGetCost, lexTypes, lexFreqDistCost,
    corpFreqDistCost, counterLen]
  norm_num
  rw [rlog4, rlog6]
  ring

/-! ### Numeric facts for the abab scenario.  All costs in that scenario are
integer combinations of log 2, log 3 and log 5; the branch comparisons reduce
to comparisons of integer products. -/

/-- Auxiliary: the no-split cost of abab is below the cost of the split
a + bab (equivalently aba + b): 5 log 5 - log 2 + log 3 < 9 log 3 + log 5,
i.e. 5^4 < 2 * 3^8. -/
theorem abab_lt_unbalanced :
    5 * Real.log 5 - Real.log 2 + Real.log 3 < 9 * Real.log 3 + Real.log 5 := by
  have key : Real.log (5 ^ 4 : ℝ) < Real.log (2 * 3 ^ 8 : ℝ) :=
    Real.log_lt_log (by positivity) (by norm_num)
  rw [Real.log_pow, Real.log_mul (by norm_num) (by positivity), Real.log_pow] at key
  push_cast at key
  linarith

/-- Auxiliary: the cost of ab + ab is at most the no-split cost of abab:
6 log 3 - 2 log 2 <= 5 log 5 - log 2 + log 3, i.e. 3^5 <= 2 * 5^5 / 2. -/
theorem abab_split_le_nosplit :
    6 * Real.log 3 - 2 * Real.log 2 ≤ 5 * Real.log 5 - Real.log 2 + Real.log 3 := by
  have key : Real.log (3 ^ 5 : ℝ) ≤ Real.log (2 * 5 ^ 5 : ℝ) :=
    Real.log_le_log (by positivity) (by norm_num)
  rw [Real.log_pow, Real.log_mul (by norm_num) (by positivity), Real.log_pow] at key
  push_cast at key
  linarith

/-- Auxiliary: the cost of ab + ab is below the cost of a + bab (aba + b):
6 log 3 - 2 log 2 < 9 log 3 + log 5, i.e. 1 < 2^2 * 3^3 * 5. -/
theorem abab_split_lt_unbalanced :
    6 * Real.log 3 - 2 * Real.log 2 < 9 * Real.log 3 + Real.log 5 := by
  have key : Real.log (1 : ℝ) < Real.log (2 ^ 2 * (3 ^ 3 * 5) : ℝ) :=
    Real.log_lt_log (by positivity) (by norm_num)
  rw [Real.log_one, Real.log_mul (by positivity) (by positivity), Real.log_pow,
    Real.log_mul (by positivity) (by norm_num), Real.log_pow] at key
  push_cast at key
  linarith

/-- Auxiliary: the cost of ab + ab is below the cost of splitting ab into
a + b: 6 log 3 - 2 log 2 < log 2 + 2 log 3 + 5 log 5, i.e. 3^4 < 2^3 * 5^5. -/
theorem ab_keep_lt_split :
    6 * Real.log 3 - 2 * Real.log 2 < Real.log 2 + 2 * Real.log 3 + 5 * Real.log 5 := by
  have key : Real.log (3 ^ 4 : ℝ) < Real.log (2 ^ 3 * 5 ^ 5 : ℝ) :=
    Real.log_lt_log (by positivity) (by norm_num)
  rw [Real.log_pow, Real.log_mul (by positivity) (by positivity), Real.log_pow,
    Real.log_pow] at key
  push_cast at key
  linarith

set_option maxHeartbeats 4000000 in
/-- C2: in recursive splitting, the no-split cost is the initial minimum and a
candidate is accepted whenever its cost is ≤ the running minimum, so the last
position attaining the minimal cost wins (first conjunct: the loop fold ends
at (m, some p) when p is the last position with the overall minimum m);
consequently, loading the one-word corpus abab with count 1 and running one
epoch of the recursive optimizer splits abab as ab + ab (at location 2, with
the shared morph ab stored at count 2 and left unsplit), not as the unsplit
word (second conjunct, computed end to end on the embedded model). -/
theorem C2_recursive_split :
    (∀ (l1 l2 : List (Nat × Real)) (p : Nat) (m m0 : Real),
        m ≤ m0 → (∀ e ∈ l1, m ≤ e.2) → (∀ e ∈ l2, m < e.2) →
        List.foldl bestStep ((m0, none) : Real × Option Nat)
          (l1 ++ (p, m) :: l2) = (m, some p)) ∧
    ((addCompound baseCM baseCostOps 4 freshBaseModel ['a','b','a','b'] 1).bind fun S1 =>
      (setCompoundAnalysis baseCM baseCostOps 4 S1 ['a','b','a','b']
          (baseCM.splitl ['a','b','a','b'] (baseCM.force_locs ['a','b','a','b']))).bind fun S2 =>
        recursiveOptimize baseCM baseCostOps 4 S2 ['a','b','a','b']).map
        (fun r => (r.2, mapLookup r.1.analyses ['a','b','a','b'],
          mapLookup r.1.analyses ['a','b'])) =
      some ([['a','b'], ['a','b']], some ⟨1, 1, [2]⟩, some ⟨0, 2, []⟩) := by
  refine ⟨fun l1 l2 p m m0 hm0 hall hlater =>
    bestStep_fold_lastmin l1 l2 p m m0 hm0 hall hlater, ?_⟩
  simp [addCompound, addCompoundBody, setCompoundAnalysis, removeConstr,
    recursiveOptimize, baseCM_split_locs, baseCM_split2, baseCM_splitl,
    baseCM_force_locs, baseCM_parts_locs, baseCostOps_update, baseCostOps_bounds,
    baseCostOps_total, freshBaseModel, freshCost, splitlStr, partsLocsStr,
    costUpdate, costUpdateBoundaries, lexAdd, lexAddAtom, lexRemove, lexRemoveAtom,
    corpUpdateCount, counterGet, counterSet, counterLen, mapLookup, mapInsert,
    mapErase, Option.bind, Option.map, strSlice, List.range', List.foldl,
    List.foldlM, two_log2_add, modifyCC_step, ne_eq, Nat.ofNat_pos, one_ne_zero,
    not_false_eq_true, neg_eq_zero, OfNat.ofNat_ne_zero, List.cons.injEq, and_self,
    Option.getD_some, Option.getD_none]
  rw [recursiveSplit_succ baseCM baseCostOps 4 _ _ (by norm_num)]
  simp [removeConstr, baseCM_split_locs, baseCM_split2, baseCostOps_update,
    baseCostOps_bounds, baseCostOps_total, costUpdate, costUpdateBoundaries,
    lexAdd, lexAddAtom, lexRemove, lexRemoveAtom, corpUpdateCount, counterGet,
    counterSet, counterLen, mapLookup, mapInsert, mapErase, Option.bind, Option.map,
    strSlice, List.range', List.foldl, List.foldlM, two_log2_add, modifyCC_step,
    recSplitLoop, four_log2_sub, two_log2_sub]
  rw [evalA, evalL1, evalB, evalL1]
  have h1 : ¬ ((9:ℝ) * Real.log 3 + Real.log 5 ≤
      5 * Real.log 5 - Real.log 2 + Real.log 3) :=
    not_le.mpr abab_lt_unbalanced
  have h2 : (6:ℝ) * Real.log 3 - 2 * Real.log 2 ≤
      5 * Real.log 5 - Real.log 2 + Real.log 3 := abab_split_le_nosplit
  have h3 : ¬ ((9:ℝ) * Real.log 3 + Real.log 5 ≤
      6 * Real.log 3 - 2 * Real.log 2) :=
    not_le.mpr abab_split_lt_unbalanced
  rw [bestStep_of_gt ((5 * Real.log 5 - Real.log 2 + Real.log 3 : Real),
        (none : Option Nat)) ((1:Nat), 9 * Real.log 3 + Real.log 5) h1,
      bestStep_of_le ((5 * Real.log 5 - Real.log 2 + Real.log 3 : Real),
        (none : Option Nat)) ((2:Nat), 6 * Real.log 3 - 2 * Real.log 2) h2,
      bestStep_of_gt ((6 * Real.log 3 - 2 * Real.log 2 : Real),
        (some (2:Nat))) ((3:Nat), 9 * Real.log 3 + Real.log 5) h3]
  simp [mapLookup, mapInsert, mapErase, Option.bind, Option.map,
    modifyCC_step, baseCostOps_update, costUpdate,
    costUpdateBoundaries, lexAdd, lexAddAtom, lexRemove, lexRemoveAtom,
    corpUpdateCount, counterGet, counterSet, counterLen,
    two_log2_add, four_log2_sub, two_log2_sub]
  rw [recursiveSplit_succ baseCM baseCostOps 3 _ _ (by norm_num)]
  simp [removeConstr, baseCM_split_locs, baseCM_split2, baseCostOps_update,
    baseCostOps_bounds, baseCostOps_total, costUpdate, costUpdateBoundaries,
    lexAdd, lexAddAtom, lexRemove, lexRemoveAtom, corpUpdateCount, counterGet,
    counterSet, counterLen, mapLookup, mapInsert, mapErase, Option.bind, Option.map,
    strSlice, List.range', List.foldl, List.foldlM, two_log2_add, four_log2_sub,
    two_log2_sub, modifyCC_step, recSplitLoop]
  rw [evalB, evalI1]
  have h4 : ¬ (Real.log 2 + 2 * Real.log 3 + 5 * Real.log 5 ≤
      6 * Real.log 3 - 2 * Real.log 2) :=
    not_le.mpr ab_keep_lt_split
  rw [bestStep_of_gt ((6 * Real.log 3 - 2 * Real.log 2 : Real),
        (none : Option Nat))
      ((1:Nat), Real.log 2 + 2 * Real.log 3 + 5 * Real.log 5) h4]
  simp [mapLookup]

/-- Witness for C2: the tie-break characterization applied to a concrete
candidate list with the tied minimum in last position. -/
theorem C2_recursive_split_witness :
    List.foldl bestStep ((0 : Real), (none : Option Nat))
      ([] ++ ((5 : Nat), (0 : Real)) :: []) = (0, some 5) :=
  C2_recursive_split.1 [] [] 5 0 0 le_rfl (by simp) (by simp)

/-- Auxiliary: positivity of the successor fuel values threaded through the
cognate recursive split. -/
theorem fuel_succ_pos (n : Nat) : 0 < n + 1 := Nat.succ_pos n

/-- C1 (amended): the projection coupling is an effect of _recursive_split
itself, not a store invariant maintained by every operation.  When a pair
with two concrete sides is recursively split while both of its wildcard
projections are present as real leaves, and the pair admits no interior
split location, the call returns the pair as its own single segment and
reinstates the pair and both projections as real leaves: equal splitloc
(all empty) and unchanged rcounts and counts, for any surrounding store and
cost state. -/
theorem C1_projection_mirror (fuel : Nat)
    (st : ModelState CogConstr (Nat × Nat) CogCostState)
    (s t : List Char) (rc k rs ks rt kt : Int)
    (hsl : cogCM.split_locs ⟨.str s, .str t⟩ = [])
    (hc : mapLookup st.analyses ⟨.str s, .str t⟩ = some ⟨rc, k, []⟩)
    (hws : mapLookup st.analyses ⟨.str s, .wild⟩ = some ⟨rs, ks, []⟩)
    (hwt : mapLookup st.analyses ⟨.wild, .str t⟩ = some ⟨rt, kt, []⟩)
    (hk : k ≠ 0) (hks : ks ≠ 0) (hkt : kt ≠ 0) :
    ∃ st', cogRecursiveSplit (fuel + 1) st ⟨.str s, .str t⟩ =
        some (st', [(⟨.str s, .str t⟩ : CogConstr)]) ∧
      mapLookup st'.analyses ⟨.str s, .str t⟩ = some ⟨rc, k, []⟩ ∧
      mapLookup st'.analyses ⟨.str s, .wild⟩ = some ⟨rs, ks, []⟩ ∧
      mapLookup st'.analyses ⟨.wild, .str t⟩ = some ⟨rt, kt, []⟩ := by
  simp [cogRecursiveSplit, removeConstr, cogDetachWild, cogLeafWild,
    cogRecSplitLoop, hsl, hc, hws, hwt, hk, hks, hkt, modifyCC_step,
    mapLookup_insert_self, mapLookup_insert_ne, mapLookup_erase_self,
    mapLookup_erase_ne, Option.bind, Option.map, neg_eq_zero, fuel_succ_pos]

/-- Witness for C1 (amended): the mirror property at the concrete pair
(a, c) with both projections present at count 1 in an otherwise empty
store. -/
theorem C1_projection_mirror_witness :
    ∃ st', cogRecursiveSplit 1
        ⟨[(⟨.str ['a'], .str ['c']⟩, ⟨1, 1, []⟩),
          (⟨.str ['a'], .wild⟩, ⟨0, 1, []⟩),
          (⟨.wild, .str ['c']⟩, ⟨0, 1, []⟩)], false, freshCogCost⟩
        ⟨.str ['a'], .str ['c']⟩ =
        some (st', [(⟨.str ['a'], .str ['c']⟩ : CogConstr)]) ∧
      mapLookup st'.analyses ⟨.str ['a'], .str ['c']⟩ = some ⟨1, 1, []⟩ ∧
      mapLookup st'.analyses ⟨.str ['a'], .wild⟩ = some ⟨0, 1, []⟩ ∧
      mapLookup st'.analyses ⟨.wild, .str ['c']⟩ = some ⟨0, 1, []⟩ :=
  C1_projection_mirror 0 _ ['a'] ['c'] 1 1 0 1 0 1 rfl rfl rfl rfl
    (by decide) (by decide) (by decide)

end MorfCog
